import Mathlib

/-!
Verification of the round-trip editing and synthesis engine of the
`dumbconf` configuration library (`dumbconf/_roundtrip.py`) against its
natural-language specification.

The source file `_roundtrip.py` is embedded shallowly below.  The
collaborator modules it imports (`dumbconf.ast`, `dumbconf._parse`,
`dumbconf._tokenize`, `dumbconf._primitive`) are not part of the core
source; where a claim depends on them they are modelled from the
specification (each such definition carries a doc comment starting with
`Modelled from the spec:`).
-/

namespace Dumbconf

/-! ## Native Python values

`_roundtrip.py` operates on native values built from strings, booleans,
`None`, ints, floats, lists/tuples and dicts.  Tuples and lists are
treated identically by the code (`isinstance(val, (tuple, list))`), so a
single `list` constructor models both.  Float payloads are carried as an
abstract identifier (`Nat`): the float codec is a collaborator and no
claim inspects the numeric value of a float.  A dict is modelled as its
ordered list of key/value pairs. -/

inductive PyVal : Type where
  | str (s : String)
  | bool (b : Bool)
  | null
  | int (n : Int)
  | float (f : Nat)
  | list (xs : List PyVal)
  | map (kvs : List (PyVal × PyVal))
  deriving Repr

mutual

/-- Structural equality on native values, modelling Python `==` on the
values `_roundtrip.py` handles (used by `_key_index` to compare map
keys).  Written as a `Bool`-valued function because deriving
`DecidableEq` for the nested inductive is not available. -/
def pyEq : PyVal → PyVal → Bool
  | .str a, .str b => a == b
  | .bool a, .bool b => a == b
  | .null, .null => true
  | .int a, .int b => a == b
  | .float a, .float b => a == b
  | .list a, .list b => pyEqList a b
  | .map a, .map b => pyEqPairs a b
  | _, _ => false

/-- Pointwise `pyEq` on lists of values. -/
def pyEqList : List PyVal → List PyVal → Bool
  | [], [] => true
  | a :: as_, b :: bs => pyEq a b && pyEqList as_ bs
  | _, _ => false

/-- Pointwise `pyEq` on lists of key/value pairs. -/
def pyEqPairs : List (PyVal × PyVal) → List (PyVal × PyVal) → Bool
  | [], [] => true
  | (k, v) :: as_, (l, w) :: bs => pyEq k l && pyEq v w && pyEqPairs as_ bs
  | _, _ => false

end

/-! ## Formatting settings (`Settings` namedtuple) -/

/-- The `Settings` namedtuple: `(indent, bare_keys, inline_small_containers)`.
`indent = -1` means "always render inline"; `indent ≥ 0` is the current
nesting depth. -/
structure Settings : Type where
  indent : Int
  bareKeys : Bool
  inlineSmallContainers : Bool
  deriving Repr, DecidableEq

/-- `Settings.indented`: the derived settings one nesting level deeper
(`self._replace(indent=self.indent + 1)`).  The Python property asserts
`indent >= 0`; it is only reached from `_multiline`, where that holds. -/
def Settings.indented (s : Settings) : Settings :=
  { s with indent := s.indent + 1 }

/-- `Settings.DEFAULT = Settings(-1, True, True)`. -/
def Settings.DEFAULT : Settings := ⟨-1, true, true⟩

/-! ## Primitive ast nodes and tokens

Primitive nodes carry a decoded `val` and their exact `src` text; they
are at the same time the tokens the synthesizer emits for atomic values.
The punctuation tokens (`Comma`, `Space`, `NL`, `Indent`, `Colon`,
`MapStart` …) each carry their source text. -/

inductive Prim : Type where
  | string (val : String) (src : String)
  | bool (val : Bool) (src : String)
  | null (src : String)
  | int (val : Int) (src : String)
  | float (val : Nat) (src : String)
  | bareWordKey (val : String) (src : String)
  deriving Repr, DecidableEq

/-- The decoded native value of a primitive node (`ast_obj.val`). -/
def Prim.val : Prim → PyVal
  | .string v _ => .str v
  | .bool v _ => .bool v
  | .null _ => .null
  | .int v _ => .int v
  | .float v _ => .float v
  | .bareWordKey v _ => .str v

/-- The exact source text of a primitive node. -/
def Prim.src : Prim → String
  | .string _ s => s
  | .bool _ s => s
  | .null s => s
  | .int _ s => s
  | .float _ s => s
  | .bareWordKey _ s => s

inductive Tok : Type where
  | prim (p : Prim)
  | mapStart
  | mapEnd
  | listStart
  | listEnd
  | comma
  | space
  | nl
  | indent (s : String)
  | colon
  | eof
  deriving Repr, DecidableEq

/-- The exact source text of a token (`token.src`). -/
def Tok.src : Tok → String
  | .prim p => p.src
  | .mapStart => "\x7b"
  | .mapEnd => "\x7d"
  | .listStart => "["
  | .listEnd => "]"
  | .comma => ","
  | .space => " "
  | .nl => "\n"
  | .indent s => s
  | .colon => ":"
  | .eof => ""

/-! ## Primitive codec and bare words (collaborators) -/

/-- Modelled from the spec: the bare-word grammar of the tokenizer
(`BARE_WORD_RE`, with `_full_match` anchoring), "an unquoted string token
valid as a key": a nonempty word starting with a letter or underscore and
continuing with letters, digits, underscores or dashes. -/
def isBareWord (s : String) : Bool :=
  match s.toList with
  | [] => false
  | c :: cs =>
      (c.isAlpha || c == '_') &&
      cs.all (fun d => d.isAlphanum || d == '_' || d == '-')

/-- Modelled from the spec: the primitive codec `encode(val) → src text`
for strings (`_primitive.String.dump`), which chooses quoting/escaping.
The exact quoting style is collaborator-defined and irrelevant to every
claim; a double-quoted form is used. -/
def strDump (s : String) : String := "\"" ++ s ++ "\""

/-- Modelled from the spec: the primitive codec for booleans. -/
def boolDump (b : Bool) : String := if b then "true" else "false"

/-- Modelled from the spec: the primitive codec for null. -/
def nullDump : String := "null"

/-- Modelled from the spec: the primitive codec for integers. -/
def intDump (n : Int) : String := toString n

/-- Modelled from the spec: the primitive codec for floats (the payload
is an abstract identifier, see `PyVal.float`). -/
def floatDump (f : Nat) : String := "f" ++ toString f

/-! ## Container renderer (`_inline`, `_multiline`, `_container`)

The Python `_container` receives the raw container value together with a
`ContainerSettings` record carrying the bracket tokens, an item renderer
and `to_iter`.  Here the already-listified items are abstracted into a
function `itemF : Settings → List (List Tok)` giving the rendered item
token lists at a choice of settings (it is applied at `settings` for the
inline form and at `settings.indented` for the multiline form, exactly
as `item_func` is in the source), and `n` is `len(to_iter(val))`. -/

/-- A run of `n` space characters (`'    ' * k` has `spaces (4*k)`). -/
def spaces : Nat → String
  | 0 => ""
  | n + 1 => spaces n ++ " "

/-- `_inline`: `start`, the items separated by `', '`, `end`; no
trailing comma. -/
def inlineToks (itemsToks : List (List Tok)) (start stop : Tok) : List Tok :=
  start ::
    (match itemsToks with
     | [] => []
     | t :: ts => t ++ ts.flatMap (fun u => [Tok.comma, Tok.space] ++ u)) ++
    [stop]

/-- `_multiline`: `start`, newline; each item preceded by an Indent of
`'    ' * settings.indented.indent` and followed by a comma and a
newline; a closing Indent of `'    ' * settings.indent` when
`settings.indent > 0`; `end`. -/
def multilineToks (s : Settings) (itemsToks : List (List Tok))
    (start stop : Tok) : List Tok :=
  [start, Tok.nl] ++
    itemsToks.flatMap
      (fun t => Tok.indent (spaces (4 * s.indented.indent).toNat) :: t ++
        [Tok.comma, Tok.nl]) ++
    (if s.indent > 0 then [Tok.indent (spaces (4 * s.indent).toNat)] else []) ++
    [stop]

/-- `_container`: inline when `settings.indent < 0`, or the container is
empty, or `inline_small_containers` and it has fewer than 2 items;
multiline otherwise (items rendered at `settings.indented`). -/
def containerToks (n : Nat) (s : Settings)
    (itemF : Settings → List (List Tok)) (start stop : Tok) : List Tok :=
  if s.indent < 0 ∨ n = 0 ∨ (s.inlineSmallContainers ∧ n < 2) then
    inlineToks (itemF s) start stop
  else
    multilineToks s (itemF s.indented) start stop

/-! ## The synthesizer (`_to_tokens` and friends) -/

mutual

/-- `_to_tokens(val, settings, key, top_level_map)`: turn a native value
into a token stream under the formatting policy. -/
def toTokens (v : PyVal) (s : Settings) (key tlm : Bool) : List Tok :=
  let tlm' := tlm && s.indent == 0
  match v with
  | .str x =>
      if s.bareKeys && key && isBareWord x then
        [Tok.prim (.bareWordKey x x)]
      else
        [Tok.prim (.string x (strDump x))]
  | .bool b => [Tok.prim (.bool b (boolDump b))]
  | .null => [Tok.prim (.null nullDump)]
  | .int n => [Tok.prim (.int n (intDump n))]
  | .float f => [Tok.prim (.float f (floatDump f))]
  | .map kvs =>
      if !kvs.isEmpty && tlm' then topLevelMapToks kvs s
      else containerToks kvs.length s (fun s' => mapItemsToks kvs s')
        Tok.mapStart Tok.mapEnd
  | .list xs =>
      containerToks xs.length s (fun s' => listItemsToks xs s')
        Tok.listStart Tok.listEnd
termination_by sizeOf v

/-- The rendered token lists of the elements of a list (the `item_func`
of `_list_tokens` is `_to_tokens` itself). -/
def listItemsToks (xs : List PyVal) (s : Settings) : List (List Tok) :=
  match xs with
  | [] => []
  | x :: rest => toTokens x s false false :: listItemsToks rest s
termination_by sizeOf xs

/-- `_map_item_tokens`: `key`, `':'`, `' '`, `value` (key synthesized
with `key=True`). -/
def mapItemToks (k v : PyVal) (s : Settings) : List Tok :=
  toTokens k s true false ++ [Tok.colon, Tok.space] ++ toTokens v s false false
termination_by sizeOf k + sizeOf v + 1

/-- The rendered token lists of the entries of a map. -/
def mapItemsToks (kvs : List (PyVal × PyVal)) (s : Settings) :
    List (List Tok) :=
  match kvs with
  | [] => []
  | (k, v) :: rest => mapItemToks k v s :: mapItemsToks rest s
termination_by sizeOf kvs

/-- `_top_level_map_tokens`: each entry as `_map_item_tokens` followed by
a newline; no braces, no commas. -/
def topLevelMapToks (kvs : List (PyVal × PyVal)) (s : Settings) : List Tok :=
  match kvs with
  | [] => []
  | (k, v) :: rest => mapItemToks k v s ++ [Tok.nl] ++ topLevelMapToks rest s
termination_by sizeOf kvs

end

/-! ## One-shot encoding (`dumps`) -/

/-- Concatenation of the source text of a token stream. -/
def unparseTokens (ts : List Tok) : String :=
  ts.foldr (fun t acc => t.src ++ acc) ""

/-- Modelled from the spec: `dumps` is
`unparse(parse_from_tokens(_to_tokens(v, settings, top_level_map=...) + EOF).val-as-doc)`.
By the §6 collaborator contract the parser validates the synthesized
stream and `unparse` flattens a tree back to text by concatenating the
stored source fragments, so the composition is the concatenation of the
token sources. -/
def dumps (v : PyVal) (indented : Bool := true) (bareKeys : Bool := true)
    (topLevelMap : Bool := true) (inlineSmallContainers : Bool := true) :
    String :=
  unparseTokens
    (toTokens v
      ⟨if indented then 0 else -1, bareKeys, inlineSmallContainers⟩
      false topLevelMap ++ [Tok.eof])

/-! ## The structural tree (`dumbconf.ast` collaborator)

Modelled from the spec (§3 data model): a container node (Map or List)
holds an ordered sequence of Items, each with an optional `key`
(primitive node, Map only), a `val` (any node), `head` (leading trivia
tokens) and `tail` (trailing trivia tokens); a container carries the two
derived flags `is_multiline` and `is_top_level_style`.  The Document
root is represented as an `Item` whose `key` is `none` (the operations
of `_roundtrip.py` only ever access `.val` and `._replace(val=...)` on
the root object, which behaves identically). -/

mutual

inductive Node : Type where
  | prim (p : Prim)
  | listC (items : List Item) (isMultiline isTopLevelStyle : Bool)
  | mapC (items : List Item) (isMultiline isTopLevelStyle : Bool)

inductive Item : Type where
  | mk (key : Option Prim) (val : Node) (head tail : List Tok)

end

/-- The `key` field of an Item. -/
def Item.key : Item → Option Prim
  | .mk k _ _ _ => k

/-- The `val` field of an Item. -/
def Item.val : Item → Node
  | .mk _ v _ _ => v

/-- The `head` (leading trivia) of an Item. -/
def Item.head : Item → List Tok
  | .mk _ _ h _ => h

/-- The `tail` (trailing trivia) of an Item. -/
def Item.tail : Item → List Tok
  | .mk _ _ _ t => t

/-- `item._replace(val=v)`. -/
def Item.withVal : Item → Node → Item
  | .mk k _ h t, v => .mk k v h t

/-- `item._replace(key=k)`. -/
def Item.withKey : Item → Option Prim → Item
  | .mk _ v h t, k => .mk k v h t

/-- `item._replace(head=h)`. -/
def Item.withHead : Item → List Tok → Item
  | .mk k v _ t, h => .mk k v h t

/-- `item._replace(tail=t)`. -/
def Item.withTail : Item → List Tok → Item
  | .mk k v h _, t => .mk k v h t

/-- The `items` of a container node (primitive nodes have none; the code
never reaches `.items` on a primitive because `_key_index` fails
first). -/
def Node.items : Node → List Item
  | .prim _ => []
  | .listC its _ _ => its
  | .mapC its _ _ => its

/-- `node._replace(items=...)`: replace the item sequence, all other
fields (the derived flags) untouched. -/
def Node.withItems : Node → List Item → Node
  | .prim p, _ => .prim p
  | .listC _ ml tls, its => .listC its ml tls
  | .mapC _ ml tls, its => .mapC its ml tls

/-- The `is_multiline` derived flag. -/
def Node.isMultiline : Node → Bool
  | .prim _ => false
  | .listC _ ml _ => ml
  | .mapC _ ml _ => ml

/-- The `is_top_level_style` derived flag. -/
def Node.isTopLevelStyle : Node → Bool
  | .prim _ => false
  | .listC _ _ tls => tls
  | .mapC _ _ tls => tls

/-- `type(node).__name__`, as used in error messages. -/
def Node.typeName : Node → String
  | .prim (.string _ _) => "String"
  | .prim (.bool _ _) => "Bool"
  | .prim (.null _) => "Null"
  | .prim (.int _ _) => "Int"
  | .prim (.float _ _) => "Float"
  | .prim (.bareWordKey _ _) => "BareWordKey"
  | .listC _ _ _ => "List"
  | .mapC _ _ _ => "Map"

/-! ## Native-value projection (`_python_value`) -/

mutual

/-- `_python_value(ast_obj)`: primitives yield their `val`, Lists an
ordered sequence, Maps an order-preserving mapping.  The result is an
`Option` because the Python code raises `AssertionError` when an
unrecognized object appears (here: a Map item whose `key` is `None`). -/
def pythonValue : Node → Option PyVal
  | .prim p => some p.val
  | .listC items _ _ => (pythonValueList items).map PyVal.list
  | .mapC items _ _ => (pythonValuePairs items).map PyVal.map
termination_by n => sizeOf n

/-- Projection of the values of a List's items. -/
def pythonValueList : List Item → Option (List PyVal)
  | [] => some []
  | .mk _ v _ _ :: rest =>
      match pythonValue v, pythonValueList rest with
      | some pv, some pr => some (pv :: pr)
      | _, _ => none
termination_by items => sizeOf items

/-- Projection of the key/value pairs of a Map's items. -/
def pythonValuePairs : List Item → Option (List (PyVal × PyVal))
  | [] => some []
  | .mk k v _ _ :: rest =>
      match k with
      | none => none
      | some kp =>
          match pythonValue v, pythonValuePairs rest with
          | some pv, some pr => some ((kp.val, pv) :: pr)
          | _, _ => none
termination_by items => sizeOf items

end

/-! ## Python errors and list indexing semantics

Errors are modelled by the exception class the Python code raises,
together with the message where a claim depends on it.  Notably
`_key_index` raises `AssertionError` — the same class as the internal
invariant-violation defects of `_python_value`/`_to_tokens` — for
missing keys and non-indexable nodes. -/

inductive PyErr : Type where
  | typeError (msg : String)
  | assertionError (msg : String)
  | indexError
  | parseError
  deriving Repr, DecidableEq

/-- Normalize a Python sequence index: negative indices count from the
end; out-of-range indices are rejected. -/
def pyNorm (n : Nat) (i : Int) : Option Nat :=
  let j := if i < 0 then i + n else i
  if 0 ≤ j ∧ j < (n : Int) then some j.toNat else none

/-- `lst[i]` for a dynamic index: non-integers raise `TypeError`,
out-of-range integers `IndexError`, negative integers count from the
end. -/
def pyGetI (l : List α) (k : PyVal) : Except PyErr α :=
  match k with
  | .int i =>
      match pyNorm l.length i with
      | some j =>
          match l.get? j with
          | some a => .ok a
          | none => .error .indexError
      | none => .error .indexError
  | _ => .error (.typeError "list indices must be integers")

/-- `lst[i] = x` with Python index semantics. -/
def pySetI (l : List α) (k : PyVal) (x : α) : Except PyErr (List α) :=
  match k with
  | .int i =>
      match pyNorm l.length i with
      | some j => .ok (l.set j x)
      | none => .error .indexError
  | _ => .error (.typeError "list indices must be integers")

/-- `del lst[i]` with Python index semantics. -/
def pyDelI (l : List α) (k : PyVal) : Except PyErr (List α) :=
  match k with
  | .int i =>
      match pyNorm l.length i with
      | some j => .ok (l.eraseIdx j)
      | none => .error .indexError
  | _ => .error (.typeError "list indices must be integers")

/-! ## Navigation (`_key_index`, `_get`) -/

/-- The linear scan of `_key_index` over a Map's items, comparing
`item.key.val == key`.  A `None` key would raise `AttributeError` in
Python; such items never occur in parser-produced Maps, and the case is
mapped to an `AssertionError` here. -/
def keyIndexScan (items : List Item) (key : PyVal) (i : Nat) :
    Except PyErr PyVal :=
  match items with
  | [] => .error (.assertionError "TODO: KeyError(key)")
  | it :: rest =>
      match it.key with
      | none => .error (.assertionError "item without key")
      | some kp =>
          if pyEq kp.val key then .ok (.int i) else keyIndexScan rest key (i + 1)

/-- `_key_index(val, key)`: index of the matching key in a Map (raising
`AssertionError('TODO: KeyError(key)')` when absent), the key itself for
a List (bounds are only checked at dereference time), and
`AssertionError(... not indexable)` for any other node. -/
def keyIndex (v : Node) (key : PyVal) : Except PyErr PyVal :=
  match v with
  | .mapC items _ _ => keyIndexScan items key 0
  | .listC _ _ _ => .ok key
  | .prim _ => .error (.assertionError "not indexable")

/-- `_get(obj, chain)`: walk the path, returning the Item at its end (or
the root object for the empty path). -/
def get (obj : Item) (chain : List PyVal) : Except PyErr Item :=
  match chain with
  | [] => .ok obj
  | k :: rest => do
      let i ← keyIndex obj.val k
      let target ← pyGetI obj.val.items i
      match rest with
      | [] => .ok target
      | _ => get target rest

/-! ## Mutation (`_modify_items` and the three local transforms) -/

/-- `_modify_items(obj, chain, items_cb)`: locate the terminal Item's
immediate container along `chain`, apply `cb` there to produce its new
item sequence, and rebuild every ancestor by replacing just the one
child that changed.  `chain[0]` on an empty chain raises `IndexError`
(unreachable through the proxy API). -/
def modifyItems (obj : Item) (chain : List PyVal)
    (cb : Item → PyVal → Except PyErr (List Item)) : Except PyErr Item :=
  match chain with
  | [] => .error .indexError
  | k :: rest => do
      let i ← keyIndex obj.val k
      match rest with
      | [] => do
          let newItems ← cb obj i
          .ok (obj.withVal (obj.val.withItems newItems))
      | _ => do
          let child ← pyGetI obj.val.items i
          let child' ← modifyItems child rest cb
          let newItems ← pySetI obj.val.items i child'
          .ok (obj.withVal (obj.val.withItems newItems))

/-! ## The grammar parser (collaborator)

Modelled from the spec: `parse_from_tokens(token sequence) → Document`
(§6), the recursive-descent grammar parser over the structural tree of
§3.  A value is a primitive token or a bracketed container; container
items carry their leading trivia as `head` and their trailing
comma/whitespace (up to and including a newline) as `tail`; the
`is_multiline` derived flag records whether the items are rendered one
per line (a newline ends an item's tail).  The parser is used by
`_to_ast` to validate synthesized token streams, so it needs to accept
exactly the streams the Formatting Policy can emit (inline and
multiline forms). -/

/-- Whitespace trivia tokens (spaces, newlines, indentation runs). -/
def isTrivia : Tok → Bool
  | .space => true
  | .nl => true
  | .indent _ => true
  | _ => false

/-- Collect an item's trailing trivia: commas and spaces, up to and
including a line-ending newline. -/
def takeTail : List Tok → List Tok × List Tok
  | [] => ([], [])
  | t :: ts =>
      match t with
      | .comma => let (a, b) := takeTail ts; (.comma :: a, b)
      | .space => let (a, b) := takeTail ts; (.space :: a, b)
      | .nl => ([.nl], ts)
      | _ => ([], t :: ts)

/-- The `is_multiline` derived flag of a parsed container: some item's
tail ends a line. -/
def itemsMultiline (items : List Item) : Bool :=
  items.any (fun it => it.tail.contains Tok.nl)

mutual

/-- Modelled from the spec: parse one value from a token stream,
returning the node and the unconsumed remainder. -/
def parseNode (fuel : Nat) (ts : List Tok) : Option (Node × List Tok) :=
  match fuel with
  | 0 => none
  | fuel + 1 =>
      match ts.dropWhile isTrivia with
      | .prim p :: rest => some (.prim p, rest)
      | .listStart :: rest =>
          match parseSeqItems fuel rest with
          | some (items, rest') =>
              some (.listC items (itemsMultiline items) false, rest')
          | none => none
      | .mapStart :: rest =>
          match parseMapItems fuel rest with
          | some (items, rest') =>
              some (.mapC items (itemsMultiline items) false, rest')
          | none => none
      | _ => none

/-- Modelled from the spec: parse the items of a List up to and
including its closing bracket. -/
def parseSeqItems (fuel : Nat) (ts : List Tok) :
    Option (List Item × List Tok) :=
  match fuel with
  | 0 => none
  | fuel + 1 =>
      match ts.dropWhile isTrivia with
      | .listEnd :: rest => some ([], rest)
      | ts1 =>
          match parseNode fuel ts1 with
          | none => none
          | some (n, ts2) =>
              let (tl, ts3) := takeTail ts2
              match parseSeqItems fuel ts3 with
              | none => none
              | some (items, rest') =>
                  some (.mk none n (ts.takeWhile isTrivia) tl :: items, rest')

/-- Modelled from the spec: parse the items of a Map (`key`, `:`,
value) up to and including its closing brace. -/
def parseMapItems (fuel : Nat) (ts : List Tok) :
    Option (List Item × List Tok) :=
  match fuel with
  | 0 => none
  | fuel + 1 =>
      match ts.dropWhile isTrivia with
      | .mapEnd :: rest => some ([], rest)
      | .prim kp :: ts1 =>
          match ts1.dropWhile isTrivia with
          | .colon :: ts2 =>
              match parseNode fuel ts2 with
              | none => none
              | some (n, ts3) =>
                  let (tl, ts4) := takeTail ts3
                  match parseMapItems fuel ts4 with
                  | none => none
                  | some (items, rest') =>
                      some (.mk (some kp) n (ts.takeWhile isTrivia) tl :: items,
                            rest')
          | _ => none
      | _ => none

end

/-- Modelled from the spec: `parse_from_tokens(tokens).val` — parse a
complete token stream (terminated by the EOF token, possibly after
trailing trivia) and return the Document's root value node. -/
def parseFromTokensVal (ts : List Tok) : Option Node :=
  match parseNode (2 * ts.length + 4) ts with
  | some (n, rest) =>
      match rest.dropWhile isTrivia with
      | [.eof] => some n
      | _ => none
  | none => none

/-- `_to_ast(...)`: run the synthesizer, append EOF, and run the parser
to obtain a validated tree instead of building one manually. -/
def toAst (v : PyVal) (s : Settings := Settings.DEFAULT) (key : Bool := false)
    (tlm : Bool := false) : Option Node :=
  parseFromTokensVal (toTokens v s key tlm ++ [Tok.eof])

/-! ## The three local transforms (`_set`, `_delete`, `_set_key`) -/

/-- `_replace_val(obj, new_value)`: replace only the `val` of an Item
with the synthesized-and-reparsed tree of `new_value`; a parse failure
propagates as an exception. -/
def replaceVal (obj : Item) (newValue : PyVal) : Except PyErr Item :=
  match toAst newValue with
  | some n => .ok (obj.withVal n)
  | none => .error .parseError

/-- `_set_cb(obj, i, val)`: `new_items[i] = _replace_val(new_items[i], val)`. -/
def setCb (obj : Item) (i : PyVal) (val : PyVal) : Except PyErr (List Item) := do
  let it ← pyGetI obj.val.items i
  let it' ← replaceVal it val
  pySetI obj.val.items i it'

/-- `_set(obj, chain, val)`. -/
def set (obj : Item) (chain : List PyVal) (val : PyVal) : Except PyErr Item :=
  match chain with
  | [] => replaceVal obj val
  | k :: rest => modifyItems obj (k :: rest) (fun o i => setCb o i val)

/-- Python's `s.endswith('\n')`: the string's final character is a
newline (the delete fixups only ever test this one-character suffix). -/
def endsWithNL (s : String) : Bool :=
  match s.toList.getLast? with
  | some c => c == '\n'
  | none => false

/-- `orig_item.tail[-1].src.endswith('\n')`; `none` models the
`IndexError` Python raises when the tail is empty. -/
def tailEndsNL (tl : List Tok) : Option Bool :=
  match tl.getLast? with
  | some t => some (endsWithNL t.src)
  | none => none

/-- `_delete_cb(obj, i)`: remove the Item at `i` and apply the
trivia-fixup rules, in the priority order of the source: top-level
guard; inline last-item comma strip; multiline move of the removed
item's tail onto the preceding item; multiline move of the removed
item's head onto the following item.  The nested structure mirrors the
short-circuit evaluation of the Python `elif` chain (in particular
`orig_item.tail[-1]` is only evaluated once the preceding conjuncts
hold, and raises `IndexError` on an empty tail). -/
def deleteCb (obj : Item) (i : PyVal) : Except PyErr (List Item) :=
  match i with
  | .int n => do
      let origItem ← pyGetI obj.val.items (.int n)
      let newItems ← pyDelI obj.val.items (.int n)
      let L : Int := obj.val.items.length
      if obj.val.isTopLevelStyle && newItems.isEmpty then
        .error (.typeError
          ("Deleting the last element of a top level map is not allowed as " ++
           "it would result in an invalid document when written out"))
      else if !obj.val.isMultiline && L == n + 1 then do
        let last ← pyGetI newItems (.int (-1))
        pySetI newItems (.int (-1)) (last.withTail [])
      else
        let ruleFour : Except PyErr (List Item) :=
          if obj.val.isMultiline && n + 1 < L && !(origItem.head == []) then
            match tailEndsNL origItem.tail with
            | none => .error .indexError
            | some true => .ok newItems
            | some false => do
                let follower ← pyGetI newItems (.int n)
                pySetI newItems (.int n) (follower.withHead origItem.head)
          else .ok newItems
        if obj.val.isMultiline && n - 1 ≥ 0 && origItem.head == [] then
          match tailEndsNL origItem.tail with
          | none => .error .indexError
          | some true => do
              let prev ← pyGetI newItems (.int (n - 1))
              pySetI newItems (.int (n - 1)) (prev.withTail origItem.tail)
          | some false => ruleFour
        else ruleFour
  | _ => .error (.typeError "list indices must be integers")

/-- `_delete(obj, chain)`. -/
def delete (obj : Item) (chain : List PyVal) : Except PyErr Item :=
  modifyItems obj chain deleteCb

/-- `_set_key_cb(obj, i, new_value)`: only Map keys can be replaced; the
new key is synthesized and re-parsed and must be a primitive node; then
only the Item's `key` field changes. -/
def setKeyCb (obj : Item) (i : PyVal) (newValue : PyVal) :
    Except PyErr (List Item) :=
  match obj.val with
  | .mapC items _ _ =>
      (match toAst newValue with
       | none => .error .parseError
       | some keyNode =>
         match keyNode with
         | .prim kp => do
             let it ← pyGetI items i
             pySetI items i (it.withKey (some kp))
         | _ => .error (.typeError
             ("Keys must be of type (String, Bool, Null, Int, Float, " ++
              "BareWordKey) but got " ++ keyNode.typeName)))
  | _ => .error (.typeError ("Can only replace Map keys, not " ++
      obj.val.typeName))

/-- `_set_key(obj, chain, new_value)`. -/
def setKey (obj : Item) (chain : List PyVal) (newValue : PyVal) :
    Except PyErr Item :=
  modifyItems obj chain (fun o i => setKeyCb o i newValue)

/-- `AstProxyChain.__delitem__`: on success the shared root cell is
replaced by the new root; on an exception the root cell is left
untouched and the exception propagates to the caller.  The pair is
(root cell after the operation, raised exception if any). -/
def delitem (root : Item) (chain : List PyVal) : Item × Option PyErr :=
  match delete root chain with
  | .ok r => (r, none)
  | .error e => (root, some e)

/-! ## Helper lemmas -/

theorem get?_eraseIdx_of_lt (l : List α) (i j : Nat) (h : i < j) :
    (l.eraseIdx j).get? i = l.get? i := by
  induction l generalizing i j with
  | nil => simp [List.eraseIdx]
  | cons x xs ih =>
      cases j with
      | zero => omega
      | succ j' =>
          cases i with
          | zero => simp [List.eraseIdx]
          | succ i' => simpa [List.eraseIdx] using ih i' j' (by omega)

theorem get?_eraseIdx_of_ge (l : List α) (i j : Nat) (h : j ≤ i) :
    (l.eraseIdx j).get? i = l.get? (i + 1) := by
  induction l generalizing i j with
  | nil => simp [List.eraseIdx]
  | cons x xs ih =>
      cases j with
      | zero => simp [List.eraseIdx]
      | succ j' =>
          cases i with
          | zero => omega
          | succ i' => simpa [List.eraseIdx] using ih i' j' (by omega)

theorem intercalate_eq_head_flatMap (sep : List α) : ∀ l : List (List α),
    List.intercalate sep l =
      match l with
      | [] => []
      | t :: ts => t ++ ts.flatMap (fun u => sep ++ u) := by
  intro l
  match l with
  | [] => simp [List.intercalate]
  | t :: ts =>
      induction ts generalizing t with
      | nil => simp [List.intercalate]
      | cons u us ih =>
          have h1 := ih u
          simp [List.intercalate] at h1 ⊢
          simp [h1]

/-! ## Claim C1 -/

/-- The native value `{"x": [1, 2, 3]}` of the spec's concrete
scenario. -/
def c1val : PyVal :=
  PyVal.map [(PyVal.str "x", PyVal.list [PyVal.int 1, PyVal.int 2, PyVal.int 3])]

/-- C1, counterexample: with all default settings,
`dumps({"x": [1, 2, 3]})` is NOT the inline text `"x: [1, 2, 3]\n"` the
claim states: the three-item list fails the small-container test
(`3 < 2` is false) at `indent = 0`, so `_container` renders it
multiline. -/
theorem dumps_small_list_not_inline : dumps c1val ≠ "x: [1, 2, 3]\n" := by
  simp [dumps, c1val, toTokens, topLevelMapToks, mapItemToks, listItemsToks,
    mapItemsToks, containerToks, multilineToks, inlineToks, unparseTokens,
    Settings.indented, isBareWord, strDump, intDump, spaces, Tok.src, Prim.src]
  decide

/-- C1, amended: `dumps({"x": [1, 2, 3]})` with default settings renders
the bare key inline but the three-item list multiline, yielding
`"x: [\n    1,\n    2,\n    3,\n]\n"`. -/
theorem dumps_small_list_multiline :
    dumps c1val = "x: [\n    1,\n    2,\n    3,\n]\n" := by
  simp [dumps, c1val, toTokens, topLevelMapToks, mapItemToks, listItemsToks,
    mapItemsToks, containerToks, multilineToks, inlineToks, unparseTokens,
    Settings.indented, isBareWord, strDump, intDump, spaces, Tok.src, Prim.src]
  decide

/-! ## Claim C6 -/

/-- C6: the container renderer chooses inline rendering exactly when
`settings.indent < 0`, or the container is empty, or
`inline_small_containers` is set and the container has fewer than 2
items; inline output is start, the items separated by a comma and a
space, then end, with no trailing comma; otherwise multiline output is
start, newline, then for each item an indent token of
`4*(settings.indent+1)` spaces, the item's tokens rendered at depth+1,
a comma, and a newline, followed (when `settings.indent > 0`) by a
closing indent token of `4*settings.indent` spaces, then end. -/
theorem container_decision (n : Nat) (s : Settings)
    (itemF : Settings → List (List Tok)) (start stop : Tok) :
    containerToks n s itemF start stop =
      if s.indent < 0 ∨ n = 0 ∨ (s.inlineSmallContainers ∧ n < 2) then
        [start] ++ List.intercalate [Tok.comma, Tok.space] (itemF s) ++ [stop]
      else
        [start, Tok.nl] ++
          (itemF s.indented).flatMap
            (fun t => [Tok.indent (spaces (4 * (s.indent + 1)).toNat)] ++ t ++
              [Tok.comma, Tok.nl]) ++
          (if s.indent > 0 then [Tok.indent (spaces (4 * s.indent).toNat)]
           else []) ++ [stop] := by
  rw [containerToks]
  split
  · rw [inlineToks.eq_def, intercalate_eq_head_flatMap]
    match itemF s with
    | [] => rfl
    | t :: ts => rfl
  · rfl

/-! ## Claim C7 -/

/-- C7: looking up an absent key in a Map, and applying a path segment
to a primitive node, both raise `AssertionError` — the very same
exception class the code uses for its internal invariant-violation
defects (`'Unknown ast'` in `_python_value`, `'Unexpected value'` in
`_to_tokens`) — rather than distinct caller-facing `KeyNotFound` /
`NotIndexable` error kinds.  The `'TODO: KeyError(key)'` message in the
source records that a distinct caller-facing error was the intent. -/
theorem keyIndex_raises_assertionError :
    keyIndex
        (Node.mapC [Item.mk (some (Prim.bareWordKey "a" "a"))
          (Node.prim (Prim.int 1 "1")) [] []] false false)
        (PyVal.str "b") =
      .error (.assertionError "TODO: KeyError(key)") ∧
    keyIndex (Node.prim (Prim.int 1 "1")) (PyVal.str "a") =
      .error (.assertionError "not indexable") :=
  ⟨rfl, rfl⟩

/-! ## Claim C5 -/

/-- C5: for every document whose root is a braceless top-level-style
mapping containing exactly one entry, deleting that entry (through the
proxy's `__delitem__`) fails with the `CannotDeleteLastTopLevelItem`
error (a `TypeError` with the source's message) and leaves the
document — root tree and all trivia — completely unchanged. -/
theorem delete_last_top_level_guard (kp : Prim) (v : Node) (hd tl : List Tok)
    (rk : Option Prim) (rh rt : List Tok) (ml : Bool) :
    delitem (Item.mk rk (Node.mapC [Item.mk (some kp) v hd tl] ml true) rh rt)
        [kp.val] =
      (Item.mk rk (Node.mapC [Item.mk (some kp) v hd tl] ml true) rh rt,
       some (PyErr.typeError
         ("Deleting the last element of a top level map is not allowed as " ++
          "it would result in an invalid document when written out"))) := by
  have h0 : keyIndex (Node.mapC [Item.mk (some kp) v hd tl] ml true) kp.val
      = .ok (.int 0) := by
    cases kp <;> simp [keyIndex, keyIndexScan, Item.key, Prim.val, pyEq]
  simp only [delitem, delete, modifyItems, Item.val, h0]
  rfl

theorem pyNorm_natCast (n i : Nat) (h : i < n) : pyNorm n i = some i := by
  simp only [pyNorm]
  have h1 : ¬((i : Int) < 0) := by omega
  rw [if_neg h1, if_pos (by omega)]
  simp

theorem pyNorm_neg (n : Nat) (i : Int) (h1 : -(n : Int) ≤ i) (h2 : i < 0) :
    pyNorm n i = some (i + n).toNat := by
  simp only [pyNorm]
  rw [if_pos h2, if_pos (by omega)]

theorem pyNorm_out (n : Nat) (i : Int) (h : i < -(n : Int) ∨ (n : Int) ≤ i) :
    pyNorm n i = none := by
  simp only [pyNorm]
  split <;> rw [if_neg (by omega)]

theorem pyGetI_nat (l : List α) (i : Nat) (a : α) (h : l.get? i = some a) :
    pyGetI l (.int i) = .ok a := by
  have hlen : i < l.length := by
    by_contra hc
    rw [List.get?_eq_none.mpr (by omega)] at h
    exact Option.noConfusion h
  rw [List.get?_eq_getElem?] at h
  simp [pyGetI, pyNorm_natCast l.length i hlen, h]

theorem pySetI_nat (l : List α) (i : Nat) (x : α) (h : i < l.length) :
    pySetI l (.int i) x = .ok (l.set i x) := by
  simp [pySetI, pyNorm_natCast l.length i h]

/-! ## Claim C9 -/

/-- C9: when delete removes the Item at index `i ≥ 1` of a multiline
container and the removed item had empty `head` and a `tail` ending in a
newline, the preceding item's entire `tail` is replaced by the removed
item's tail (its original comma/comment/newline tokens are discarded),
not appended to. -/
theorem delete_multiline_tail_moved (obj : Item) (i : Nat) (orig prev : Item)
    (hml : obj.val.isMultiline = true)
    (h1 : 1 ≤ i)
    (horig : obj.val.items.get? i = some orig)
    (hprev : obj.val.items.get? (i - 1) = some prev)
    (hhead : orig.head = [])
    (htail : tailEndsNL orig.tail = some true) :
    deleteCb obj (.int i) =
      .ok ((obj.val.items.eraseIdx i).set (i - 1) (prev.withTail orig.tail)) := by
  have hlen : i < obj.val.items.length := by
    by_contra hc
    rw [List.get?_eq_none.mpr (by omega)] at horig
    exact Option.noConfusion horig
  have hget := pyGetI_nat _ _ _ horig
  have hdel : pyDelI obj.val.items (.int i) = .ok (obj.val.items.eraseIdx i) := by
    simp [pyDelI, pyNorm_natCast _ _ hlen]
  have hlen' : (obj.val.items.eraseIdx i).length = obj.val.items.length - 1 :=
    List.length_eraseIdx_of_lt hlen
  have hpg : pyGetI (obj.val.items.eraseIdx i) (.int ((i : Int) - 1)) = .ok prev := by
    have h2 : ((i : Int) - 1) = ((i - 1 : Nat) : Int) := by omega
    rw [h2]
    apply pyGetI_nat
    rw [get?_eraseIdx_of_lt _ _ _ (show i - 1 < i by omega)]
    exact hprev
  have hps : pySetI (obj.val.items.eraseIdx i) (.int ((i : Int) - 1))
      (prev.withTail orig.tail) =
      .ok ((obj.val.items.eraseIdx i).set (i - 1) (prev.withTail orig.tail)) := by
    have h2 : ((i : Int) - 1) = ((i - 1 : Nat) : Int) := by omega
    rw [h2]
    apply pySetI_nat
    rw [hlen']
    omega
  have hne : (obj.val.items.eraseIdx i).isEmpty = false := by
    cases hE : obj.val.items.eraseIdx i with
    | nil =>
        exfalso
        have hl := congrArg List.length hE
        rw [hlen'] at hl
        simp at hl
        omega
    | cons a as => rfl
  rw [deleteCb]
  simp only [hget, hdel, Except.bind, bind]
  rw [if_neg (by simp [hne])]
  rw [if_neg (by simp [hml])]
  have hcond : (obj.val.isMultiline && decide ((i : Int) - 1 ≥ 0) &&
      (orig.head == [])) = true := by
    simp [hml, hhead]
    omega
  rw [if_pos hcond, htail]
  simp only [hpg, hps]

/-- Witness for `delete_multiline_tail_moved`: deleting item 1 of a
two-item multiline list whose removed item continued the previous line;
the preceding item's comma token is discarded, replaced by the removed
item's tail. -/
theorem delete_multiline_tail_moved_witness :
    deleteCb
        (Item.mk none (Node.listC
          [Item.mk none (Node.prim (.int 1 "1")) [Tok.indent "    "]
             [Tok.comma, Tok.nl],
           Item.mk none (Node.prim (.int 2 "2")) [] [Tok.nl]] true false) [] [])
        (.int 1) =
      .ok [Item.mk none (Node.prim (.int 1 "1")) [Tok.indent "    "] [Tok.nl]] := by
  exact delete_multiline_tail_moved
    (Item.mk none (Node.listC
      [Item.mk none (Node.prim (.int 1 "1")) [Tok.indent "    "]
         [Tok.comma, Tok.nl],
       Item.mk none (Node.prim (.int 2 "2")) [] [Tok.nl]] true false) [] [])
    1
    (Item.mk none (Node.prim (.int 2 "2")) [] [Tok.nl])
    (Item.mk none (Node.prim (.int 1 "1")) [Tok.indent "    "] [Tok.comma, Tok.nl])
    rfl (by decide) rfl rfl rfl rfl

/-! ## Claim C4 -/

/-- The removed item of the C4 counterexample: its own indentation and a
tail that ends in a newline. -/
def c4it0 : Item :=
  Item.mk none (Node.prim (.int 1 "1")) [Tok.indent "    "] [Tok.comma, Tok.nl]

/-- The following item of the C4 counterexample: its tail does not end
in a newline. -/
def c4it1 : Item := Item.mk none (Node.prim (.int 2 "2")) [] [Tok.comma]

/-- The C4 counterexample container: multiline, not top-level style. -/
def c4obj : Item := Item.mk none (Node.listC [c4it0, c4it1] true false) [] []

/-- C4, counterexample: in a multiline container where rules 1-3 do not
apply, the removed item has non-empty `head`, and the FOLLOWING item's
tail does not end in a newline, the claim demands the removed item's
head be moved onto the following item; the code instead tests the
REMOVED item's own tail (`orig_item.tail[-1]`), which here ends in a
newline, so no fixup is applied and the following item keeps its empty
head. -/
theorem delete_fixup_follows_removed_tail_counterexample :
    deleteCb c4obj (.int 0) = .ok [c4it1] ∧
    deleteCb c4obj (.int 0) ≠ .ok [c4it1.withHead c4it0.head] ∧
    c4obj.val.isMultiline = true ∧
    c4obj.val.isTopLevelStyle = false ∧
    c4it0.head ≠ [] ∧
    tailEndsNL c4it1.tail = some false := by
  refine ⟨rfl, fun h => ?_, rfl, rfl, by decide, rfl⟩
  rw [show deleteCb c4obj (.int 0) = .ok [c4it1] from rfl] at h
  simp [c4it0, c4it1, Item.withHead, Item.head] at h

/-- C4, amended: when delete removes the Item at index `i` of a
multiline container and rules 1-3 do not apply, then if the following
item exists, the removed item's `head` is non-empty, and the REMOVED
item's own tail does not end in a newline, the removed item's head is
moved onto the following item; in every other remaining case no fixup is
applied. -/
theorem delete_multiline_head_fixup (obj : Item) (i : Nat) (orig : Item)
    (hml : obj.val.isMultiline = true)
    (horig : obj.val.items.get? i = some orig)
    (hguard1 : ¬(obj.val.isTopLevelStyle = true ∧ obj.val.items.length = 1))
    (hrule3 : ¬(1 ≤ i ∧ orig.head = [] ∧ tailEndsNL orig.tail = some true))
    (htl : orig.tail ≠ []) :
    (∀ follower, obj.val.items.get? (i + 1) = some follower →
       orig.head ≠ [] → tailEndsNL orig.tail = some false →
       deleteCb obj (.int i) =
         .ok ((obj.val.items.eraseIdx i).set i (follower.withHead orig.head))) ∧
    (i + 1 = obj.val.items.length ∨ orig.head = [] ∨
       tailEndsNL orig.tail = some true →
       deleteCb obj (.int i) = .ok (obj.val.items.eraseIdx i)) := by
  have hlen : i < obj.val.items.length := by
    by_contra hc
    rw [List.get?_eq_none.mpr (by omega)] at horig
    exact Option.noConfusion horig
  have hget := pyGetI_nat _ _ _ horig
  have hdel : pyDelI obj.val.items (.int i) = .ok (obj.val.items.eraseIdx i) := by
    simp [pyDelI, pyNorm_natCast _ _ hlen]
  have hlen' : (obj.val.items.eraseIdx i).length = obj.val.items.length - 1 :=
    List.length_eraseIdx_of_lt hlen
  have hEndsSome : ∃ b, tailEndsNL orig.tail = some b := by
    match hL : orig.tail.getLast? with
    | some t => exact ⟨endsWithNL t.src, by simp [tailEndsNL, hL]⟩
    | none => exact absurd (List.getLast?_eq_none_iff.mp hL) htl
  have hguard1' : (obj.val.isTopLevelStyle &&
      (obj.val.items.eraseIdx i).isEmpty) = false := by
    cases h : obj.val.isTopLevelStyle with
    | false => rfl
    | true =>
        have hne1 : obj.val.items.length ≠ 1 := fun hc => hguard1 ⟨h, hc⟩
        have hlen0 : (obj.val.items.eraseIdx i).length ≠ 0 := by
          rw [hlen']; omega
        have hf : (obj.val.items.eraseIdx i).isEmpty = false := by
          by_contra hc
          rw [Bool.not_eq_false, List.isEmpty_iff_length_eq_zero] at hc
          exact hlen0 hc
        simp [hf]
  constructor
  · intro follower hfol hhead hends
    have hlen2 : i + 1 < obj.val.items.length := by
      by_contra hc
      rw [List.get?_eq_none.mpr (by omega)] at hfol
      exact Option.noConfusion hfol
    have hpg : pyGetI (obj.val.items.eraseIdx i) (.int i) = .ok follower := by
      apply pyGetI_nat
      rw [get?_eraseIdx_of_ge _ _ _ (Nat.le_refl i)]
      exact hfol
    have hps : pySetI (obj.val.items.eraseIdx i) (.int i)
        (follower.withHead orig.head) =
        .ok ((obj.val.items.eraseIdx i).set i (follower.withHead orig.head)) := by
      apply pySetI_nat
      omega
    rw [deleteCb]
    simp only [hget, hdel, Except.bind, bind]
    rw [if_neg (by simp [hguard1']), if_neg (by simp [hml])]
    rw [if_neg (show ¬(obj.val.isMultiline && decide ((i : Int) - 1 ≥ 0) &&
        (orig.head == [])) = true by simp [hhead])]
    rw [if_pos (show (obj.val.isMultiline && decide ((i : Int) + 1 <
        (obj.val.items.length : Int)) && !(orig.head == [])) = true by
      simp [hml, hhead]
      omega)]
    rw [hends]
    simp only [hpg, hps]
  · intro hcase
    rw [deleteCb]
    simp only [hget, hdel, Except.bind, bind]
    rw [if_neg (by simp [hguard1']), if_neg (by simp [hml])]
    rcases hEndsSome with ⟨b, hb⟩
    by_cases h3 : ((obj.val.isMultiline && decide ((i : Int) - 1 ≥ 0) &&
        (orig.head == [])) = true)
    · -- the rule-3 guard holds but the tail cannot end in a newline here
      have hhead : orig.head = [] := by
        simp [hml] at h3
        exact h3.2
      have hb' : b = false := by
        rcases hcase with hc | hc | hc
        · -- head is [] so this disjunct cannot make the tail end in NL;
          -- rule3 hypothesis forces it
          cases b with
          | false => rfl
          | true =>
              exfalso
              apply hrule3
              refine ⟨?_, hhead, hb⟩
              simp [hml] at h3
              omega
        · cases b with
          | false => rfl
          | true =>
              exfalso
              apply hrule3
              refine ⟨?_, hhead, hb⟩
              simp [hml] at h3
              omega
        · exfalso
          apply hrule3
          refine ⟨?_, hhead, hc⟩
          simp [hml] at h3
          omega
      rw [if_pos h3, hb, hb']
      rw [if_neg (show ¬(obj.val.isMultiline && decide ((i : Int) + 1 <
          (obj.val.items.length : Int)) && !(orig.head == [])) = true by
        simp [hhead])]
    · rw [if_neg h3]
      by_cases h4 : ((obj.val.isMultiline && decide ((i : Int) + 1 <
          (obj.val.items.length : Int)) && !(orig.head == [])) = true)
      · have hhead : orig.head ≠ [] := by
          simp [hml] at h4
          simpa using h4.2
        have hlt : i + 1 < obj.val.items.length := by
          simp [hml] at h4
          omega
        have hb' : b = true := by
          rcases hcase with hc | hc | hc
          · omega
          · exact absurd hc hhead
          · rw [hc] at hb
            exact (Option.some_inj.mp hb).symm
        rw [if_pos h4, hb, hb']
      · rw [if_neg h4]

/-- Witness for `delete_multiline_head_fixup`: a concrete two-item
multiline list where the removed first item's tail lacks a newline, so
its indentation head is moved onto the following item. -/
theorem delete_multiline_head_fixup_witness :
    deleteCb
        (Item.mk none (Node.listC
          [Item.mk none (Node.prim (.int 1 "1")) [Tok.indent "    "] [Tok.comma],
           Item.mk none (Node.prim (.int 2 "2")) [] [Tok.comma, Tok.nl]]
          true false) [] [])
        (.int 0) =
      .ok [Item.mk none (Node.prim (.int 2 "2")) [Tok.indent "    "]
        [Tok.comma, Tok.nl]] := by
  exact (delete_multiline_head_fixup
    (Item.mk none (Node.listC
      [Item.mk none (Node.prim (.int 1 "1")) [Tok.indent "    "] [Tok.comma],
       Item.mk none (Node.prim (.int 2 "2")) [] [Tok.comma, Tok.nl]]
      true false) [] [])
    0
    (Item.mk none (Node.prim (.int 1 "1")) [Tok.indent "    "] [Tok.comma])
    rfl rfl (by decide) (by decide) (by decide)).1
    (Item.mk none (Node.prim (.int 2 "2")) [] [Tok.comma, Tok.nl])
    rfl (by decide) rfl

/-! ## Claim C10 -/

/-- C10: for every List node of length `n` and integer index
`-n ≤ k < 0`, get, set and delete at that index succeed and address the
item at position `n + k` (so `-1` addresses the last item) instead of
failing with IndexOutOfRange; only indices outside `[-n, n)` fail at
dereference time.  The multiline-container invariant of §3 (item tails
end with a newline) is assumed for the addressed item so the delete
fixups neither fire nor raise. -/
theorem negative_index_addressing (obj : Item) (items : List Item) (ml : Bool)
    (k : Int) (orig : Item) (v : PyVal) (r : Node)
    (hobj : obj.val = Node.listC items ml false)
    (hk1 : -(items.length : Int) ≤ k) (hk2 : k < 0)
    (horig : items.get? ((items.length : Int) + k).toNat = some orig)
    (hinv : ml = true → tailEndsNL orig.tail = some true)
    (hr : toAst v = some r) :
    get obj [PyVal.int k] = .ok orig ∧
    set obj [PyVal.int k] v =
      .ok (obj.withVal (Node.listC
        (items.set ((items.length : Int) + k).toNat (orig.withVal r)) ml
        false)) ∧
    delete obj [PyVal.int k] =
      .ok (obj.withVal (Node.listC
        (items.eraseIdx ((items.length : Int) + k).toNat) ml false)) ∧
    (∀ k' : Int, k' < -(items.length : Int) ∨ (items.length : Int) ≤ k' →
       get obj [PyVal.int k'] = .error .indexError) := by
  set j : Nat := ((items.length : Int) + k).toNat with hj
  have hjlt : j < items.length := by
    by_contra hc
    rw [List.get?_eq_none.mpr (by omega)] at horig
    exact Option.noConfusion horig
  have hnorm : pyNorm items.length k = some j := by
    rw [pyNorm_neg _ _ hk1 hk2]
    congr 1
    omega
  have hget : pyGetI items (.int k) = .ok orig := by
    rw [List.get?_eq_getElem?] at horig
    simp [pyGetI, hnorm, horig]
  have hki : keyIndex obj.val (.int k) = .ok (.int k) := by
    rw [hobj]; rfl
  have hitems : obj.val.items = items := by rw [hobj]; rfl
  refine ⟨?_, ?_, ?_, ?_⟩
  · rw [get, hki]
    simp only [Except.bind, bind, hitems, hget]
  · rw [set, modifyItems, hki]
    simp only [Except.bind, bind]
    rw [setCb]
    simp only [Except.bind, bind, hitems, hget, replaceVal, hr]
    have hset : pySetI items (.int k) (orig.withVal r) =
        .ok (items.set j (orig.withVal r)) := by
      simp [pySetI, hnorm]
    rw [hset]
    simp only [Except.bind, bind]
    rw [hobj]
    rfl
  · rw [delete, modifyItems, hki]
    simp only [Except.bind, bind]
    rw [deleteCb]
    simp only [Except.bind, bind, hitems, hget]
    have hdel : pyDelI items (.int k) = .ok (items.eraseIdx j) := by
      simp [pyDelI, hnorm]
    rw [hdel]
    simp only [Except.bind, bind]
    have hg1 : ((Node.listC items ml false).isTopLevelStyle &&
        (items.eraseIdx j).isEmpty) = false := by
      simp [Node.isTopLevelStyle]
    have hg2 : ((!(Node.listC items ml false).isMultiline &&
        ((items.length : Int) == k + 1)) = false) := by
      have : ¬((items.length : Int) = k + 1) := by omega
      simp [this]
    rw [hobj]
    rw [if_neg (by simp [hg1]), if_neg (by simp_all [hg2])]
    rw [if_neg (show ¬((Node.listC items ml false).isMultiline &&
        decide (k - 1 ≥ 0) && (orig.head == [])) = true by
      have : ¬(k - 1 ≥ 0) := by omega
      simp [this])]
    by_cases h4 : ((Node.listC items ml false).isMultiline &&
        decide (k + 1 < (items.length : Int)) && !(orig.head == [])) = true
    · have hml : ml = true := by
        simp [Node.isMultiline] at h4
        exact h4.1.1
      rw [if_pos h4, hinv hml]
      rfl
    · rw [if_neg h4]
      rfl
  · intro k' hk'
    have hki' : keyIndex obj.val (.int k') = .ok (.int k') := by
      rw [hobj]; rfl
    rw [get, hki']
    simp only [Except.bind, bind, hitems]
    simp [pyGetI, pyNorm_out _ _ hk']

/-- Witness for `negative_index_addressing`: index `-1` of a two-item
inline list addresses the second item for both get and delete. -/
theorem negative_index_addressing_witness :
    get (Item.mk none (Node.listC
        [Item.mk none (Node.prim (.int 1 "1")) [] [Tok.comma, Tok.space],
         Item.mk none (Node.prim (.int 2 "2")) [] []] false false) [] [])
      [PyVal.int (-1)] =
      .ok (Item.mk none (Node.prim (.int 2 "2")) [] []) ∧
    delete (Item.mk none (Node.listC
        [Item.mk none (Node.prim (.int 1 "1")) [] [Tok.comma, Tok.space],
         Item.mk none (Node.prim (.int 2 "2")) [] []] false false) [] [])
      [PyVal.int (-1)] =
      .ok (Item.mk none (Node.listC
        [Item.mk none (Node.prim (.int 1 "1")) [] [Tok.comma, Tok.space]]
        false false) [] []) := by
  have h := negative_index_addressing
    (Item.mk none (Node.listC
      [Item.mk none (Node.prim (.int 1 "1")) [] [Tok.comma, Tok.space],
       Item.mk none (Node.prim (.int 2 "2")) [] []] false false) [] [])
    [Item.mk none (Node.prim (.int 1 "1")) [] [Tok.comma, Tok.space],
     Item.mk none (Node.prim (.int 2 "2")) [] []]
    false (-1)
    (Item.mk none (Node.prim (.int 2 "2")) [] [])
    PyVal.null (Node.prim (.null "null"))
    rfl (by norm_num) (by norm_num) (by norm_num) (fun hc => nomatch hc)
    (by simp [toAst, toTokens, nullDump]; rfl)
  exact ⟨h.1, h.2.2.1⟩

/-! ## Claim C2: synthesize-then-project round trip

Well-formedness of a native value: maps have pairwise `==`-distinct keys
(the claim's hypothesis) and the keys are primitives (the amendment:
Python tuples are hashable, so `{(1, 2): 3}` is a native value built
from the listed types, but its synthesized key token stream is a
bracketed container which the grammar's key position rejects). -/

/-- Whether a native value is a primitive (string/bool/None/int/float). -/
def isPrimVal : PyVal → Bool
  | .str _ => true
  | .bool _ => true
  | .null => true
  | .int _ => true
  | .float _ => true
  | .list _ => false
  | .map _ => false

/-- Pairwise distinctness of a list of values under Python `==`. -/
def keysDistinct : List PyVal → Bool
  | [] => true
  | k :: ks => !(ks.any (pyEq k)) && keysDistinct ks

mutual

/-- Well-formed native value: every map has pairwise-distinct primitive
keys. -/
def wfVal : PyVal → Bool
  | .str _ => true
  | .bool _ => true
  | .null => true
  | .int _ => true
  | .float _ => true
  | .list xs => wfList xs
  | .map kvs => keysDistinct (kvs.map Prod.fst) && wfPairs kvs

/-- `wfVal` on every element. -/
def wfList : List PyVal → Bool
  | [] => true
  | x :: xs => wfVal x && wfList xs

/-- Primitive keys and `wfVal` values. -/
def wfPairs : List (PyVal × PyVal) → Bool
  | [] => true
  | (k, v) :: rest => isPrimVal k && wfVal v && wfPairs rest

end

/-! ### Token-stream shapes of the synthesizer's output -/

/-- The later items of an inline list body, each preceded by `, `. -/
def inBodyRest (xs : List PyVal) (s : Settings) : List Tok :=
  match xs with
  | [] => []
  | x :: rest =>
      Tok.comma :: Tok.space :: (toTokens x s false false ++ inBodyRest rest s)

/-- The inline body of a rendered list: the items' tokens separated by
comma-space. -/
def inBody (xs : List PyVal) (s : Settings) : List Tok :=
  match xs with
  | [] => []
  | x :: rest => toTokens x s false false ++ inBodyRest rest s

/-- The multiline body of a rendered list: each item preceded by an
indent token and followed by a comma and a newline. -/
def mlBody (xs : List PyVal) (s : Settings) (istr : String) : List Tok :=
  match xs with
  | [] => []
  | x :: rest =>
      Tok.indent istr ::
        (toTokens x s false false ++ (Tok.comma :: Tok.nl :: mlBody rest s istr))

/-- The later entries of an inline map body, each preceded by `, `. -/
def inBodyRestM (kvs : List (PyVal × PyVal)) (s : Settings) : List Tok :=
  match kvs with
  | [] => []
  | (k, v) :: rest =>
      Tok.comma :: Tok.space :: (mapItemToks k v s ++ inBodyRestM rest s)

/-- The inline body of a rendered map. -/
def inBodyM (kvs : List (PyVal × PyVal)) (s : Settings) : List Tok :=
  match kvs with
  | [] => []
  | (k, v) :: rest => mapItemToks k v s ++ inBodyRestM rest s

/-- The multiline body of a rendered map. -/
def mlBodyM (kvs : List (PyVal × PyVal)) (s : Settings) (istr : String) :
    List Tok :=
  match kvs with
  | [] => []
  | (k, v) :: rest =>
      Tok.indent istr ::
        (mapItemToks k v s ++ (Tok.comma :: Tok.nl :: mlBodyM rest s istr))

theorem flatMap_inBodyRest (s : Settings) (ys : List PyVal) :
    (listItemsToks ys s).flatMap (fun u => Tok.comma :: Tok.space :: u) =
      inBodyRest ys s := by
  induction ys with
  | nil => rw [listItemsToks, inBodyRest]; rfl
  | cons y yr ih => rw [listItemsToks, inBodyRest, List.flatMap_cons, ih]; simp

theorem inlineToks_eq_inBody (xs : List PyVal) (s : Settings) (st sp : Tok) :
    inlineToks (listItemsToks xs s) st sp = st :: (inBody xs s ++ [sp]) := by
  cases xs with
  | nil => rw [listItemsToks, inBody, inlineToks.eq_def]; rfl
  | cons x rest =>
      rw [listItemsToks, inBody, inlineToks.eq_def]
      simp [flatMap_inBodyRest]

theorem flatMap_mlBody (s s' : Settings) (ys : List PyVal) :
    (listItemsToks ys s').flatMap
      (fun t => Tok.indent (spaces (4 * s.indented.indent).toNat) ::
        (t ++ [Tok.comma, Tok.nl])) =
      mlBody ys s' (spaces (4 * s.indented.indent).toNat) := by
  induction ys with
  | nil => rw [listItemsToks, mlBody]; rfl
  | cons y yr ih => rw [listItemsToks, mlBody, List.flatMap_cons, ih]; simp

theorem multilineToks_eq_mlBody (xs : List PyVal) (s s' : Settings)
    (st sp : Tok) :
    multilineToks s (listItemsToks xs s') st sp =
      [st, Tok.nl] ++ mlBody xs s' (spaces (4 * s.indented.indent).toNat) ++
        (if s.indent > 0 then [Tok.indent (spaces (4 * s.indent).toNat)]
         else []) ++ [sp] := by
  rw [multilineToks]
  simp only [List.cons_append, List.append_assoc, flatMap_mlBody s s' xs]

theorem flatMap_inBodyRestM (s : Settings) (ys : List (PyVal × PyVal)) :
    (mapItemsToks ys s).flatMap (fun u => Tok.comma :: Tok.space :: u) =
      inBodyRestM ys s := by
  induction ys with
  | nil => rw [mapItemsToks, inBodyRestM]; rfl
  | cons y yr ih =>
      obtain ⟨yk, yv⟩ := y
      rw [mapItemsToks, inBodyRestM, List.flatMap_cons, ih]
      simp

theorem inlineToks_eq_inBodyM (kvs : List (PyVal × PyVal)) (s : Settings)
    (st sp : Tok) :
    inlineToks (mapItemsToks kvs s) st sp = st :: (inBodyM kvs s ++ [sp]) := by
  cases kvs with
  | nil => rw [mapItemsToks, inBodyM, inlineToks.eq_def]; rfl
  | cons kv rest =>
      obtain ⟨k, v⟩ := kv
      rw [mapItemsToks, inBodyM, inlineToks.eq_def]
      simp [flatMap_inBodyRestM]

theorem flatMap_mlBodyM (s s' : Settings) (ys : List (PyVal × PyVal)) :
    (mapItemsToks ys s').flatMap
      (fun t => Tok.indent (spaces (4 * s.indented.indent).toNat) ::
        (t ++ [Tok.comma, Tok.nl])) =
      mlBodyM ys s' (spaces (4 * s.indented.indent).toNat) := by
  induction ys with
  | nil => rw [mapItemsToks, mlBodyM]; rfl
  | cons y yr ih =>
      obtain ⟨yk, yv⟩ := y
      rw [mapItemsToks, mlBodyM, List.flatMap_cons, ih]
      simp

theorem multilineToks_eq_mlBodyM (kvs : List (PyVal × PyVal)) (s s' : Settings)
    (st sp : Tok) :
    multilineToks s (mapItemsToks kvs s') st sp =
      [st, Tok.nl] ++ mlBodyM kvs s' (spaces (4 * s.indented.indent).toNat) ++
        (if s.indent > 0 then [Tok.indent (spaces (4 * s.indent).toNat)]
         else []) ++ [sp] := by
  rw [multilineToks]
  simp only [List.cons_append, List.append_assoc, flatMap_mlBodyM s s' kvs]

/-- Shape of a token that can open a value. -/
def ValueHead (t : Tok) : Prop :=
  (∃ p, t = Tok.prim p) ∨ t = Tok.listStart ∨ t = Tok.mapStart

theorem ValueHead.not_trivia {t : Tok} (h : ValueHead t) : isTrivia t = false := by
  rcases h with ⟨p, rfl⟩ | rfl | rfl <;> rfl

/-- The first token of a synthesized value (in value position) is a
primitive, a list opener or a map opener. -/
theorem toTokens_head (v : PyVal) (s : Settings) :
    ∃ t ts, toTokens v s false false = t :: ts ∧ ValueHead t := by
  cases v with
  | str x =>
      rw [toTokens]
      rw [if_neg (by simp)]
      exact ⟨_, _, rfl, Or.inl ⟨_, rfl⟩⟩
  | bool b => rw [toTokens]; exact ⟨_, _, rfl, Or.inl ⟨_, rfl⟩⟩
  | null => rw [toTokens]; exact ⟨_, _, rfl, Or.inl ⟨_, rfl⟩⟩
  | int n => rw [toTokens]; exact ⟨_, _, rfl, Or.inl ⟨_, rfl⟩⟩
  | float f => rw [toTokens]; exact ⟨_, _, rfl, Or.inl ⟨_, rfl⟩⟩
  | list xs =>
      rw [toTokens, containerToks]
      split
      · rw [inlineToks_eq_inBody]
        exact ⟨_, _, rfl, Or.inr (Or.inl rfl)⟩
      · rw [multilineToks_eq_mlBody xs s s.indented _ _]
        exact ⟨_, _, rfl, Or.inr (Or.inl rfl)⟩
  | map kvs =>
      rw [toTokens]
      rw [if_neg (by simp)]
      rw [containerToks]
      split
      · rw [inlineToks_eq_inBodyM]
        exact ⟨_, _, rfl, Or.inr (Or.inr rfl)⟩
      · rw [multilineToks_eq_mlBodyM kvs s s.indented _ _]
        exact ⟨_, _, rfl, Or.inr (Or.inr rfl)⟩

/-- A synthesized key of a primitive native value is a single primitive
token decoding back to the same value. -/
theorem toTokens_key_prim (v : PyVal) (s : Settings) (h : isPrimVal v = true) :
    ∃ p, toTokens v s true false = [Tok.prim p] ∧ p.val = v := by
  cases v with
  | str x =>
      rw [toTokens]
      by_cases hb : (s.bareKeys && true && isBareWord x) = true
      · rw [if_pos hb]
        exact ⟨_, rfl, rfl⟩
      · rw [if_neg hb]
        exact ⟨_, rfl, rfl⟩
  | bool b => rw [toTokens]; exact ⟨_, rfl, rfl⟩
  | null => rw [toTokens]; exact ⟨_, rfl, rfl⟩
  | int n => rw [toTokens]; exact ⟨_, rfl, rfl⟩
  | float f => rw [toTokens]; exact ⟨_, rfl, rfl⟩
  | list xs => exact absurd h (by simp [isPrimVal])
  | map kvs => exact absurd h (by simp [isPrimVal])

theorem dropWhile_trivia_append (pre : List Tok) (t : Tok) (ts : List Tok)
    (hpre : ∀ u ∈ pre, isTrivia u = true) (ht : isTrivia t = false) :
    (pre ++ t :: ts).dropWhile isTrivia = t :: ts := by
  induction pre with
  | nil => simp [List.dropWhile, ht]
  | cons u us ih =>
      have hu : isTrivia u = true := hpre u (by simp)
      simp only [List.cons_append, List.dropWhile, hu]
      exact ih (fun w hw => hpre w (by simp [hw]))

theorem dropWhile_cons_not_trivia (t : Tok) (ts : List Tok)
    (ht : isTrivia t = false) :
    List.dropWhile isTrivia (t :: ts) = t :: ts := by
  rw [List.dropWhile_cons, ht]
  rfl

theorem takeTail_value_head (t : Tok) (h : ValueHead t) (l : List Tok) :
    takeTail (t :: l) = ([], t :: l) := by
  rcases h with ⟨p, rfl⟩ | rfl | rfl <;> rfl

theorem takeTail_comma_space (t : Tok) (h : ValueHead t) (l : List Tok) :
    takeTail (Tok.comma :: Tok.space :: t :: l) =
      ([Tok.comma, Tok.space], t :: l) := by
  rw [show takeTail (Tok.comma :: Tok.space :: t :: l) =
    (Tok.comma :: Tok.space :: (takeTail (t :: l)).1, (takeTail (t :: l)).2)
    from rfl]
  rw [takeTail_value_head t h l]

theorem takeTail_comma_nl (l : List Tok) :
    takeTail (Tok.comma :: Tok.nl :: l) = ([Tok.comma, Tok.nl], l) := rfl

theorem takeTail_listEnd (l : List Tok) :
    takeTail (Tok.listEnd :: l) = ([], Tok.listEnd :: l) := rfl

theorem takeTail_mapEnd (l : List Tok) :
    takeTail (Tok.mapEnd :: l) = ([], Tok.mapEnd :: l) := rfl

mutual

/-- A synthesized value token stream (with a leading run of trivia)
parses back to a node that projects to the original value, consuming
exactly the synthesized tokens. -/
theorem parseNode_toTokens (v : PyVal) (s : Settings) (pre rest : List Tok)
    (fuel : Nat)
    (hwf : wfVal v = true)
    (hpre : ∀ t ∈ pre, isTrivia t = true)
    (hfuel : (toTokens v s false false).length < fuel) :
    ∃ n, parseNode fuel (pre ++ (toTokens v s false false ++ rest)) =
        some (n, rest) ∧ pythonValue n = some v := by
  match fuel, v with
  | f + 1, .str x =>
      have hx : toTokens (.str x) s false false =
          [Tok.prim (.string x (strDump x))] := by
        rw [toTokens]; rw [if_neg (by simp)]
      rw [hx]
      refine ⟨.prim (.string x (strDump x)), ?_, by rw [pythonValue]; rfl⟩
      rw [parseNode]
      simp only [List.singleton_append]
      rw [dropWhile_trivia_append pre (Tok.prim (.string x (strDump x))) _
        hpre rfl]
  | f + 1, .bool b =>
      rw [show toTokens (.bool b) s false false =
        [Tok.prim (.bool b (boolDump b))] from by rw [toTokens]]
      refine ⟨.prim (.bool b (boolDump b)), ?_, by rw [pythonValue]; rfl⟩
      rw [parseNode]
      simp only [List.singleton_append]
      rw [dropWhile_trivia_append pre (Tok.prim (.bool b (boolDump b))) _
        hpre rfl]
  | f + 1, .null =>
      rw [show toTokens .null s false false =
        [Tok.prim (.null nullDump)] from by rw [toTokens]]
      refine ⟨.prim (.null nullDump), ?_, by rw [pythonValue]; rfl⟩
      rw [parseNode]
      simp only [List.singleton_append]
      rw [dropWhile_trivia_append pre (Tok.prim (.null nullDump)) _ hpre rfl]
  | f + 1, .int m =>
      rw [show toTokens (.int m) s false false =
        [Tok.prim (.int m (intDump m))] from by rw [toTokens]]
      refine ⟨.prim (.int m (intDump m)), ?_, by rw [pythonValue]; rfl⟩
      rw [parseNode]
      simp only [List.singleton_append]
      rw [dropWhile_trivia_append pre (Tok.prim (.int m (intDump m))) _
        hpre rfl]
  | f + 1, .float fl =>
      rw [show toTokens (.float fl) s false false =
        [Tok.prim (.float fl (floatDump fl))] from by rw [toTokens]]
      refine ⟨.prim (.float fl (floatDump fl)), ?_, by rw [pythonValue]; rfl⟩
      rw [parseNode]
      simp only [List.singleton_append]
      rw [dropWhile_trivia_append pre (Tok.prim (.float fl (floatDump fl))) _
        hpre rfl]
  | f + 1, .list xs =>
      rw [wfVal] at hwf
      rw [toTokens, containerToks] at hfuel ⊢
      by_cases hc : s.indent < 0 ∨ xs.length = 0 ∨
          (s.inlineSmallContainers = true ∧ xs.length < 2)
      · rw [if_pos hc] at hfuel ⊢
        rw [inlineToks_eq_inBody] at hfuel ⊢
        have hfuel2 : (inBody xs s).length + 1 < f := by
          simp at hfuel
          omega
        obtain ⟨items, hp, hv⟩ := parseSeq_inline xs s rest f hwf hfuel2
        refine ⟨.listC items (itemsMultiline items) false, ?_,
          by rw [pythonValue, hv]; rfl⟩
        rw [parseNode]
        have hstream : pre ++ ((Tok.listStart :: (inBody xs s ++ [Tok.listEnd]))
            ++ rest) = pre ++ Tok.listStart ::
              (inBody xs s ++ Tok.listEnd :: rest) := by simp
        rw [hstream, dropWhile_trivia_append pre Tok.listStart _ hpre rfl]
        simp only [hp]
      · rw [if_neg hc] at hfuel ⊢
        rw [multilineToks_eq_mlBody xs s s.indented] at hfuel ⊢
        have hfuel2 : (1 : Nat) +
            (mlBody xs s.indented (spaces (4 * s.indented.indent).toNat)).length +
            (if s.indent > 0 then
              [Tok.indent (spaces (4 * s.indent).toNat)] else []).length + 1
            < f := by
          simp at hfuel ⊢
          split at hfuel <;> split <;> simp_all <;> omega
        obtain ⟨items, hp, hv⟩ := parseSeq_ml xs s.indented
          (spaces (4 * s.indented.indent).toNat) [Tok.nl]
          (if s.indent > 0 then [Tok.indent (spaces (4 * s.indent).toNat)]
           else []) rest f hwf (by intro t ht; simp at ht; rw [ht]; rfl)
          (by intro t ht; split at ht <;> simp at ht; rw [ht]; rfl)
          (by simpa using hfuel2)
        refine ⟨.listC items (itemsMultiline items) false, ?_,
          by rw [pythonValue, hv]; rfl⟩
        rw [parseNode]
        have hstream : pre ++ (([Tok.listStart, Tok.nl] ++
            mlBody xs s.indented (spaces (4 * s.indented.indent).toNat) ++
            (if s.indent > 0 then [Tok.indent (spaces (4 * s.indent).toNat)]
             else []) ++ [Tok.listEnd]) ++ rest) =
            pre ++ Tok.listStart :: ([Tok.nl] ++
              (mlBody xs s.indented (spaces (4 * s.indented.indent).toNat) ++
              ((if s.indent > 0 then
                [Tok.indent (spaces (4 * s.indent).toNat)] else []) ++
              (Tok.listEnd :: rest)))) := by simp
        rw [hstream, dropWhile_trivia_append pre Tok.listStart _ hpre rfl]
        simp only [hp]
  | f + 1, .map kvs =>
      rw [wfVal, Bool.and_eq_true] at hwf
      obtain ⟨hdis, hwp⟩ := hwf
      rw [toTokens] at hfuel ⊢
      rw [if_neg (by simp)] at hfuel ⊢
      rw [containerToks] at hfuel ⊢
      by_cases hc : s.indent < 0 ∨ kvs.length = 0 ∨
          (s.inlineSmallContainers = true ∧ kvs.length < 2)
      · rw [if_pos hc] at hfuel ⊢
        rw [inlineToks_eq_inBodyM] at hfuel ⊢
        have hfuel2 : (inBodyM kvs s).length + 1 < f := by
          simp at hfuel
          omega
        obtain ⟨items, hp, hv⟩ := parseMap_inline kvs s rest f hwp hfuel2
        refine ⟨.mapC items (itemsMultiline items) false, ?_,
          by rw [pythonValue, hv]; rfl⟩
        rw [parseNode]
        have hstream : pre ++ ((Tok.mapStart :: (inBodyM kvs s ++ [Tok.mapEnd]))
            ++ rest) = pre ++ Tok.mapStart ::
              (inBodyM kvs s ++ Tok.mapEnd :: rest) := by simp
        rw [hstream, dropWhile_trivia_append pre Tok.mapStart _ hpre rfl]
        simp only [hp]
      · rw [if_neg hc] at hfuel ⊢
        rw [multilineToks_eq_mlBodyM kvs s s.indented] at hfuel ⊢
        have hfuel2 : (1 : Nat) +
            (mlBodyM kvs s.indented (spaces (4 * s.indented.indent).toNat)).length +
            (if s.indent > 0 then
              [Tok.indent (spaces (4 * s.indent).toNat)] else []).length + 1
            < f := by
          simp at hfuel ⊢
          split at hfuel <;> split <;> simp_all <;> omega
        obtain ⟨items, hp, hv⟩ := parseMap_ml kvs s.indented
          (spaces (4 * s.indented.indent).toNat) [Tok.nl]
          (if s.indent > 0 then [Tok.indent (spaces (4 * s.indent).toNat)]
           else []) rest f hwp (by intro t ht; simp at ht; rw [ht]; rfl)
          (by intro t ht; split at ht <;> simp at ht; rw [ht]; rfl)
          (by simpa using hfuel2)
        refine ⟨.mapC items (itemsMultiline items) false, ?_,
          by rw [pythonValue, hv]; rfl⟩
        rw [parseNode]
        have hstream : pre ++ (([Tok.mapStart, Tok.nl] ++
            mlBodyM kvs s.indented (spaces (4 * s.indented.indent).toNat) ++
            (if s.indent > 0 then [Tok.indent (spaces (4 * s.indent).toNat)]
             else []) ++ [Tok.mapEnd]) ++ rest) =
            pre ++ Tok.mapStart :: ([Tok.nl] ++
              (mlBodyM kvs s.indented (spaces (4 * s.indented.indent).toNat) ++
              ((if s.indent > 0 then
                [Tok.indent (spaces (4 * s.indent).toNat)] else []) ++
              (Tok.mapEnd :: rest)))) := by simp
        rw [hstream, dropWhile_trivia_append pre Tok.mapStart _ hpre rfl]
        simp only [hp]
termination_by sizeOf v

/-- An inline-rendered list body followed by the closing bracket parses
to items projecting to the original elements. -/
theorem parseSeq_inline (xs : List PyVal) (s : Settings) (rest : List Tok)
    (fuel : Nat)
    (hwf : wfList xs = true)
    (hfuel : (inBody xs s).length + 1 < fuel) :
    ∃ items, parseSeqItems fuel (inBody xs s ++ Tok.listEnd :: rest) =
        some (items, rest) ∧ pythonValueList items = some xs := by
  match fuel, xs with
  | f + 1, [] =>
      rw [inBody]
      exact ⟨[], rfl, by rw [pythonValueList]⟩
  | f + 1, [x] =>
      rw [wfList, Bool.and_eq_true] at hwf
      obtain ⟨hwx, _⟩ := hwf
      rw [inBody] at hfuel ⊢
      obtain ⟨t, ts, htoks, hshape⟩ := toTokens_head x s
      have hfx : (toTokens x s false false).length < f := by
        have h := hfuel
        rw [List.length_append] at h
        omega
      obtain ⟨n, hn, hnv⟩ := parseNode_toTokens x s [] (inBodyRest [] s ++
        Tok.listEnd :: rest) f hwx (by simp) hfx
      rw [List.nil_append] at hn
      rw [parseSeqItems]
      have hstream : (toTokens x s false false ++ inBodyRest [] s) ++
          Tok.listEnd :: rest =
          t :: (ts ++ (inBodyRest [] s ++ Tok.listEnd :: rest)) := by
        rw [htoks]; simp
      rw [hstream]
      rw [dropWhile_cons_not_trivia t _ hshape.not_trivia]
      have hn' : parseNode f (t :: (ts ++ (inBodyRest [] s ++
          Tok.listEnd :: rest))) = some (n, inBodyRest [] s ++
          Tok.listEnd :: rest) := by
        rw [← List.cons_append, ← htoks]
        exact hn
      rcases hshape with ⟨p, rfl⟩ | rfl | rfl
      all_goals
        simp only [hn']
        rw [inBodyRest]
        rw [show ([] : List Tok) ++ Tok.listEnd :: rest = Tok.listEnd :: rest
          from rfl]
        rw [takeTail_listEnd]
        obtain ⟨items, hitems, hvitems⟩ := parseSeq_inline [] s rest f
          (by rw [wfList])
          (by
            have hlx := congrArg List.length htoks
            have h := hfuel
            rw [List.length_append] at h
            rw [inBody]
            simp only [List.length_cons] at hlx
            simp only [List.length_nil]
            omega)
        rw [inBody, List.nil_append] at hitems
        rw [hitems]
        refine ⟨_, rfl, ?_⟩
        rw [pythonValueList]
        simp only [hnv, hvitems]
  | f + 1, x :: y :: ys =>
      rw [wfList, Bool.and_eq_true] at hwf
      obtain ⟨hwx, hwxs⟩ := hwf
      rw [inBody] at hfuel ⊢
      obtain ⟨t, ts, htoks, hshape⟩ := toTokens_head x s
      have hfx : (toTokens x s false false).length < f := by
        have h := hfuel
        rw [List.length_append] at h
        omega
      obtain ⟨n, hn, hnv⟩ := parseNode_toTokens x s []
        (inBodyRest (y :: ys) s ++ Tok.listEnd :: rest) f hwx (by simp) hfx
      rw [List.nil_append] at hn
      rw [parseSeqItems]
      have hstream : (toTokens x s false false ++ inBodyRest (y :: ys) s) ++
          Tok.listEnd :: rest =
          t :: (ts ++ (inBodyRest (y :: ys) s ++ Tok.listEnd :: rest)) := by
        rw [htoks]; simp
      rw [hstream]
      rw [dropWhile_cons_not_trivia t _ hshape.not_trivia]
      have hn' : parseNode f (t :: (ts ++ (inBodyRest (y :: ys) s ++
          Tok.listEnd :: rest))) = some (n, inBodyRest (y :: ys) s ++
          Tok.listEnd :: rest) := by
        rw [← List.cons_append, ← htoks]
        exact hn
      rcases hshape with ⟨p, rfl⟩ | rfl | rfl
      all_goals
        simp only [hn']
        rw [inBodyRest]
        obtain ⟨t2, ts2, htoks2, hshape2⟩ := toTokens_head y s
        have hsplit : (Tok.comma :: Tok.space :: (toTokens y s false false ++
            inBodyRest ys s)) ++ Tok.listEnd :: rest =
            Tok.comma :: Tok.space :: t2 :: (ts2 ++ (inBodyRest ys s ++
              Tok.listEnd :: rest)) := by
          rw [htoks2]; simp
        rw [hsplit, takeTail_comma_space t2 hshape2]
        have hrec : (inBody (y :: ys) s).length + 1 < f := by
          have h := hfuel
          rw [inBodyRest] at h
          rw [inBody]
          simp only [List.length_append, List.length_cons] at h ⊢
          omega
        obtain ⟨items, hitems, hvitems⟩ := parseSeq_inline (y :: ys) s rest f
          hwxs hrec
        rw [inBody, htoks2] at hitems
        have hstream2 : t2 :: (ts2 ++ (inBodyRest ys s ++
            Tok.listEnd :: rest)) = (t2 :: ts2 ++ inBodyRest ys s) ++
            Tok.listEnd :: rest := by simp
        rw [hstream2, hitems]
        refine ⟨_, rfl, ?_⟩
        rw [pythonValueList]
        simp only [hnv, hvitems]
termination_by sizeOf xs

/-- A multiline-rendered list body (with leading trivia and trailing
closing indentation) followed by the closing bracket parses to items
projecting to the original elements. -/
theorem parseSeq_ml (xs : List PyVal) (s : Settings) (istr : String)
    (pre cl rest : List Tok) (fuel : Nat)
    (hwf : wfList xs = true)
    (hpre : ∀ t ∈ pre, isTrivia t = true)
    (hcl : ∀ t ∈ cl, isTrivia t = true)
    (hfuel : pre.length + (mlBody xs s istr).length + cl.length + 1 < fuel) :
    ∃ items, parseSeqItems fuel
        (pre ++ (mlBody xs s istr ++ (cl ++ (Tok.listEnd :: rest)))) =
        some (items, rest) ∧ pythonValueList items = some xs := by
  match fuel, xs with
  | f + 1, [] =>
      rw [mlBody]
      refine ⟨[], ?_, by rw [pythonValueList]⟩
      rw [parseSeqItems]
      rw [show pre ++ (([] : List Tok) ++ (cl ++ (Tok.listEnd :: rest))) =
        (pre ++ cl) ++ Tok.listEnd :: rest from by simp]
      rw [dropWhile_trivia_append (pre ++ cl) Tok.listEnd rest
        (by intro t ht; simp at ht; rcases ht with h | h
            exacts [hpre t h, hcl t h]) rfl]
  | f + 1, x :: xs' =>
      rw [wfList, Bool.and_eq_true] at hwf
      obtain ⟨hwx, hwxs⟩ := hwf
      rw [mlBody] at hfuel ⊢
      obtain ⟨t, ts, htoks, hshape⟩ := toTokens_head x s
      have hfx : (toTokens x s false false).length < f := by
        simp at hfuel
        omega
      obtain ⟨n, hn, hnv⟩ := parseNode_toTokens x s []
        (Tok.comma :: Tok.nl :: mlBody xs' s istr ++ (cl ++
          (Tok.listEnd :: rest))) f hwx (by simp) hfx
      rw [List.nil_append] at hn
      rw [parseSeqItems]
      have hstream : pre ++ ((Tok.indent istr :: (toTokens x s false false ++
          (Tok.comma :: Tok.nl :: mlBody xs' s istr))) ++
          (cl ++ (Tok.listEnd :: rest))) =
          (pre ++ [Tok.indent istr]) ++ (t :: (ts ++
            (Tok.comma :: Tok.nl :: mlBody xs' s istr ++
              (cl ++ (Tok.listEnd :: rest))))) := by
        rw [htoks]; simp
      rw [hstream]
      rw [dropWhile_trivia_append (pre ++ [Tok.indent istr]) _ _
        (by intro u hu; simp at hu; rcases hu with h | h
            exacts [hpre u h, by rw [h]; rfl]) hshape.not_trivia]
      have hn' : parseNode f (t :: (ts ++ (Tok.comma :: Tok.nl ::
          mlBody xs' s istr ++ (cl ++ (Tok.listEnd :: rest))))) =
          some (n, Tok.comma :: Tok.nl :: mlBody xs' s istr ++
            (cl ++ (Tok.listEnd :: rest))) := by
        rw [← List.cons_append, ← htoks]
        exact hn
      rcases hshape with ⟨p, rfl⟩ | rfl | rfl
      all_goals
        simp only [hn']
        rw [show Tok.comma :: Tok.nl :: mlBody xs' s istr ++
          (cl ++ (Tok.listEnd :: rest)) = Tok.comma :: Tok.nl ::
          (mlBody xs' s istr ++ (cl ++ (Tok.listEnd :: rest))) from by simp]
        rw [takeTail_comma_nl]
        obtain ⟨items, hitems, hvitems⟩ := parseSeq_ml xs' s istr [] cl rest f
          hwxs (by simp) hcl (by simp at hfuel ⊢; omega)
        rw [List.nil_append] at hitems
        rw [hitems]
        refine ⟨_, rfl, ?_⟩
        rw [pythonValueList]
        simp only [hnv, hvitems]
termination_by sizeOf xs

/-- An inline-rendered map body followed by the closing brace parses to
items projecting to the original entries. -/
theorem parseMap_inline (kvs : List (PyVal × PyVal)) (s : Settings)
    (rest : List Tok) (fuel : Nat)
    (hwf : wfPairs kvs = true)
    (hfuel : (inBodyM kvs s).length + 1 < fuel) :
    ∃ items, parseMapItems fuel (inBodyM kvs s ++ Tok.mapEnd :: rest) =
        some (items, rest) ∧ pythonValuePairs items = some kvs := by
  match fuel, kvs with
  | f + 1, [] =>
      rw [inBodyM]
      exact ⟨[], rfl, by rw [pythonValuePairs]⟩
  | f + 1, [(k, v)] =>
      rw [wfPairs] at hwf
      simp only [Bool.and_eq_true] at hwf
      obtain ⟨⟨hpk, hwv⟩, _⟩ := hwf
      rw [inBodyM, mapItemToks] at hfuel ⊢
      obtain ⟨kp, hkp, hkpv⟩ := toTokens_key_prim k s hpk
      have hfv : (toTokens v s false false).length < f := by
        have h := hfuel
        rw [hkp] at h
        simp at h
        omega
      obtain ⟨n, hn, hnv⟩ := parseNode_toTokens v s [Tok.space]
        (inBodyRestM [] s ++ Tok.mapEnd :: rest) f hwv (by simp; rfl) hfv
      rw [parseMapItems]
      have hstream : ((toTokens k s true false ++ [Tok.colon, Tok.space] ++
          toTokens v s false false) ++ inBodyRestM [] s) ++
          Tok.mapEnd :: rest =
          Tok.prim kp :: (Tok.colon :: (Tok.space ::
            (toTokens v s false false ++ (inBodyRestM [] s ++
              Tok.mapEnd :: rest)))) := by
        rw [hkp]; simp
      rw [hstream]
      rw [dropWhile_cons_not_trivia (Tok.prim kp) _ rfl]
      have hn' : parseNode f (Tok.space :: (toTokens v s false false ++
          (inBodyRestM [] s ++ Tok.mapEnd :: rest))) =
          some (n, inBodyRestM [] s ++ Tok.mapEnd :: rest) := by
        rw [show Tok.space :: (toTokens v s false false ++
          (inBodyRestM [] s ++ Tok.mapEnd :: rest)) =
          [Tok.space] ++ (toTokens v s false false ++
          (inBodyRestM [] s ++ Tok.mapEnd :: rest)) from rfl]
        exact hn
      simp only [dropWhile_cons_not_trivia, isTrivia, hn']
      rw [inBodyRestM]
      rw [show ([] : List Tok) ++ Tok.mapEnd :: rest = Tok.mapEnd :: rest
        from rfl]
      rw [takeTail_mapEnd]
      obtain ⟨items, hitems, hvitems⟩ := parseMap_inline [] s rest f
        (by rw [wfPairs])
        (by
          have h := hfuel
          rw [hkp] at h
          rw [inBodyM]
          simp only [List.length_append, List.length_cons, List.length_nil]
            at h ⊢
          omega)
      rw [inBodyM, List.nil_append] at hitems
      rw [hitems]
      refine ⟨_, rfl, ?_⟩
      rw [pythonValuePairs]
      simp only [hnv, hvitems, hkpv]
  | f + 1, (k, v) :: (k2, v2) :: kvr =>
      rw [wfPairs] at hwf
      simp only [Bool.and_eq_true] at hwf
      obtain ⟨⟨hpk, hwv⟩, hwr⟩ := hwf
      rw [inBodyM, mapItemToks] at hfuel ⊢
      obtain ⟨kp, hkp, hkpv⟩ := toTokens_key_prim k s hpk
      have hfv : (toTokens v s false false).length < f := by
        have h := hfuel
        rw [hkp] at h
        simp at h
        omega
      obtain ⟨n, hn, hnv⟩ := parseNode_toTokens v s [Tok.space]
        (inBodyRestM ((k2, v2) :: kvr) s ++ Tok.mapEnd :: rest) f hwv
        (by simp; rfl) hfv
      rw [parseMapItems]
      have hstream : ((toTokens k s true false ++ [Tok.colon, Tok.space] ++
          toTokens v s false false) ++ inBodyRestM ((k2, v2) :: kvr) s) ++
          Tok.mapEnd :: rest =
          Tok.prim kp :: (Tok.colon :: (Tok.space ::
            (toTokens v s false false ++ (inBodyRestM ((k2, v2) :: kvr) s ++
              Tok.mapEnd :: rest)))) := by
        rw [hkp]; simp
      rw [hstream]
      rw [dropWhile_cons_not_trivia (Tok.prim kp) _ rfl]
      have hn' : parseNode f (Tok.space :: (toTokens v s false false ++
          (inBodyRestM ((k2, v2) :: kvr) s ++ Tok.mapEnd :: rest))) =
          some (n, inBodyRestM ((k2, v2) :: kvr) s ++ Tok.mapEnd :: rest) := by
        rw [show Tok.space :: (toTokens v s false false ++
          (inBodyRestM ((k2, v2) :: kvr) s ++ Tok.mapEnd :: rest)) =
          [Tok.space] ++ (toTokens v s false false ++
          (inBodyRestM ((k2, v2) :: kvr) s ++ Tok.mapEnd :: rest)) from rfl]
        exact hn
      simp only [dropWhile_cons_not_trivia, isTrivia, hn']
      rw [inBodyRestM, mapItemToks]
      obtain ⟨kp2, hkp2, hkpv2⟩ := toTokens_key_prim k2 s (by
        rw [wfPairs] at hwr
        simp only [Bool.and_eq_true] at hwr
        exact hwr.1.1)
      have hsplit : (Tok.comma :: Tok.space :: ((toTokens k2 s true false ++
          [Tok.colon, Tok.space] ++ toTokens v2 s false false) ++
          inBodyRestM kvr s)) ++ Tok.mapEnd :: rest =
          Tok.comma :: Tok.space :: Tok.prim kp2 :: (([Tok.colon, Tok.space]
            ++ toTokens v2 s false false ++ inBodyRestM kvr s) ++
            Tok.mapEnd :: rest) := by
        rw [hkp2]; simp
      rw [hsplit, takeTail_comma_space (Tok.prim kp2) (Or.inl ⟨kp2, rfl⟩)]
      have hrec : (inBodyM ((k2, v2) :: kvr) s).length + 1 < f := by
        rw [inBodyM, mapItemToks, hkp2]
        have h := hfuel
        rw [inBodyRestM, mapItemToks, hkp2, hkp] at h
        simp at h ⊢
        omega
      obtain ⟨items, hitems, hvitems⟩ := parseMap_inline ((k2, v2) :: kvr)
        s rest f hwr hrec
      rw [inBodyM, mapItemToks, hkp2] at hitems
      have hstream2 : Tok.prim kp2 :: (([Tok.colon, Tok.space] ++
          toTokens v2 s false false ++ inBodyRestM kvr s) ++
          Tok.mapEnd :: rest) = [Tok.prim kp2] ++ [Tok.colon, Tok.space] ++
          toTokens v2 s false false ++ inBodyRestM kvr s ++
          Tok.mapEnd :: rest := by simp
      rw [hstream2]
      simp only [hitems]
      refine ⟨_, rfl, ?_⟩
      rw [pythonValuePairs]
      simp only [hnv, hvitems, hkpv]
termination_by sizeOf kvs

/-- A multiline-rendered map body followed by the closing brace parses
to items projecting to the original entries. -/
theorem parseMap_ml (kvs : List (PyVal × PyVal)) (s : Settings) (istr : String)
    (pre cl rest : List Tok) (fuel : Nat)
    (hwf : wfPairs kvs = true)
    (hpre : ∀ t ∈ pre, isTrivia t = true)
    (hcl : ∀ t ∈ cl, isTrivia t = true)
    (hfuel : pre.length + (mlBodyM kvs s istr).length + cl.length + 1 < fuel) :
    ∃ items, parseMapItems fuel
        (pre ++ (mlBodyM kvs s istr ++ (cl ++ (Tok.mapEnd :: rest)))) =
        some (items, rest) ∧ pythonValuePairs items = some kvs := by
  match fuel, kvs with
  | f + 1, [] =>
      rw [mlBodyM]
      refine ⟨[], ?_, by rw [pythonValuePairs]⟩
      rw [parseMapItems]
      rw [show pre ++ (([] : List Tok) ++ (cl ++ (Tok.mapEnd :: rest))) =
        (pre ++ cl) ++ Tok.mapEnd :: rest from by simp]
      rw [dropWhile_trivia_append (pre ++ cl) Tok.mapEnd rest
        (by intro t ht; simp at ht; rcases ht with h | h
            exacts [hpre t h, hcl t h]) rfl]
  | f + 1, (k, v) :: kvs' =>
      rw [wfPairs] at hwf
      simp only [Bool.and_eq_true] at hwf
      obtain ⟨⟨hpk, hwv⟩, hwr⟩ := hwf
      rw [mlBodyM, mapItemToks] at hfuel ⊢
      obtain ⟨kp, hkp, hkpv⟩ := toTokens_key_prim k s hpk
      have hfv : (toTokens v s false false).length < f := by
        rw [hkp] at hfuel
        simp at hfuel
        omega
      obtain ⟨n, hn, hnv⟩ := parseNode_toTokens v s [Tok.space]
        (Tok.comma :: Tok.nl :: mlBodyM kvs' s istr ++
          (cl ++ (Tok.mapEnd :: rest))) f hwv (by simp; rfl) hfv
      rw [parseMapItems]
      have hstream : pre ++ ((Tok.indent istr :: ((toTokens k s true false ++
          [Tok.colon, Tok.space] ++ toTokens v s false false) ++
          (Tok.comma :: Tok.nl :: mlBodyM kvs' s istr))) ++
          (cl ++ (Tok.mapEnd :: rest))) =
          (pre ++ [Tok.indent istr]) ++ (Tok.prim kp ::
            (Tok.colon :: (Tok.space :: (toTokens v s false false ++
              (Tok.comma :: Tok.nl :: mlBodyM kvs' s istr ++
                (cl ++ (Tok.mapEnd :: rest))))))) := by
        rw [hkp]; simp
      rw [hstream]
      rw [dropWhile_trivia_append (pre ++ [Tok.indent istr]) (Tok.prim kp) _
        (by intro u hu; simp at hu; rcases hu with h | h
            exacts [hpre u h, by rw [h]; rfl]) rfl]
      have hn' : parseNode f (Tok.space :: (toTokens v s false false ++
          (Tok.comma :: Tok.nl :: mlBodyM kvs' s istr ++
            (cl ++ (Tok.mapEnd :: rest))))) =
          some (n, Tok.comma :: Tok.nl :: mlBodyM kvs' s istr ++
            (cl ++ (Tok.mapEnd :: rest))) := by
        rw [show Tok.space :: (toTokens v s false false ++
          (Tok.comma :: Tok.nl :: mlBodyM kvs' s istr ++
            (cl ++ (Tok.mapEnd :: rest)))) =
          [Tok.space] ++ (toTokens v s false false ++
          (Tok.comma :: Tok.nl :: mlBodyM kvs' s istr ++
            (cl ++ (Tok.mapEnd :: rest)))) from rfl]
        exact hn
      simp only [dropWhile_cons_not_trivia, isTrivia, hn']
      rw [show Tok.comma :: Tok.nl :: mlBodyM kvs' s istr ++
        (cl ++ (Tok.mapEnd :: rest)) = Tok.comma :: Tok.nl ::
        (mlBodyM kvs' s istr ++ (cl ++ (Tok.mapEnd :: rest))) from by simp]
      rw [takeTail_comma_nl]
      obtain ⟨items, hitems, hvitems⟩ := parseMap_ml kvs' s istr [] cl rest f
        hwr (by simp) hcl (by rw [hkp] at hfuel; simp at hfuel ⊢; omega)
      rw [List.nil_append] at hitems
      rw [hitems]
      refine ⟨_, rfl, ?_⟩
      rw [pythonValuePairs]
      simp only [hnv, hvitems, hkpv]
termination_by sizeOf kvs

end

/-- The C2 counterexample value: a mapping keyed by a tuple.  Tuples are
hashable, so this is a native value built from the claim's listed types
with (trivially) pairwise-distinct keys. -/
def c2tupleKey : PyVal :=
  PyVal.map [(PyVal.list [PyVal.int 1, PyVal.int 2], PyVal.int 3)]

/-- C2, counterexample: synthesizing `{(1, 2): 3}` renders the tuple key
as a bracketed container token stream (`{[1, 2]: 3}`), which the
grammar's key position rejects: re-parsing fails, so no tree exists to
project and the round-trip identity fails for this value. -/
theorem synthesize_container_key_fails : toAst c2tupleKey = none := by
  have h : toTokens c2tupleKey Settings.DEFAULT false false =
      [Tok.mapStart, Tok.listStart, Tok.prim (.int 1 "1"), Tok.comma,
       Tok.space, Tok.prim (.int 2 "2"), Tok.listEnd, Tok.colon, Tok.space,
       Tok.prim (.int 3 "3"), Tok.mapEnd] := by
    simp [c2tupleKey, toTokens, mapItemsToks, mapItemToks, listItemsToks,
      containerToks, inlineToks, intDump, Settings.DEFAULT]
    refine ⟨?_, ?_, ?_⟩ <;> decide
  rw [toAst, h]
  rfl

/-- C2, amended: for every native value `v` built from strings,
booleans, None, integers, floats, lists/tuples, and mappings whose keys
are pairwise distinct *primitives*, and any formatting settings,
projecting the tree obtained by synthesizing `v` and re-parsing the
resulting token stream yields a value semantically equal to `v` (tuples
and lists are identified, as the code treats them identically). -/
theorem synthesize_project_roundtrip (v : PyVal) (s : Settings)
    (hwf : wfVal v = true) :
    ∃ n, toAst v s = some n ∧ pythonValue n = some v := by
  obtain ⟨n, hp, hv⟩ := parseNode_toTokens v s [] [Tok.eof]
    (2 * (toTokens v s false false ++ [Tok.eof]).length + 4) hwf (by simp)
    (by simp only [List.length_append, List.length_cons, List.length_nil]
        omega)
  rw [List.nil_append] at hp
  refine ⟨n, ?_, hv⟩
  rw [toAst, parseFromTokensVal]
  simp only [hp]
  rw [dropWhile_cons_not_trivia Tok.eof [] rfl]

/-- Witness value for the round-trip theorem. -/
def c2wit : PyVal :=
  PyVal.map [(PyVal.str "a", PyVal.list [PyVal.int 1, PyVal.bool true]),
             (PyVal.str "b", PyVal.null)]

/-- Witness for `synthesize_project_roundtrip` at a concrete nested
value under the default settings. -/
theorem synthesize_project_roundtrip_witness :
    ∃ n, toAst c2wit Settings.DEFAULT = some n ∧
      pythonValue n = some c2wit := by
  exact synthesize_project_roundtrip c2wit Settings.DEFAULT
    (by simp [c2wit, wfVal, wfList, wfPairs, keysDistinct, isPrimVal, pyEq])

/-! ## Navigation and rebuilding lemmas for the edit algebra -/

/-- A mutation through `_modify_items` replaces only the `val` of the
object (its `key`, `head` and `tail` are untouched), and the new `val`
is the old container with a new item sequence. -/
theorem modifyItems_shell (obj : Item) (chain : List PyVal)
    (cb : Item → PyVal → Except PyErr (List Item)) (obj' : Item)
    (h : modifyItems obj chain cb = .ok obj') :
    obj'.key = obj.key ∧ obj'.head = obj.head ∧ obj'.tail = obj.tail ∧
      ∃ newItems, obj'.val = obj.val.withItems newItems := by
  match chain with
  | [] => exact absurd h (by rw [modifyItems]; exact fun hc => nomatch hc)
  | k :: rest =>
      rw [modifyItems] at h
      cases hki : keyIndex obj.val k with
      | error e => rw [hki] at h; exact absurd h (by exact fun hc => nomatch hc)
      | ok i =>
          rw [hki] at h
          simp only [Except.bind, bind] at h
          match rest with
          | [] =>
              cases hcb : cb obj i with
              | error e =>
                  rw [hcb] at h
                  exact absurd h (by exact fun hc => nomatch hc)
              | ok newItems =>
                  rw [hcb] at h
                  simp only [Except.bind, bind, Except.ok.injEq] at h
                  subst h
                  obtain ⟨ko, vo, ho, t0⟩ := obj
                  exact ⟨rfl, rfl, rfl, newItems, rfl⟩
          | r0 :: rr =>
              cases hg : pyGetI obj.val.items i with
              | error e =>
                  rw [hg] at h
                  exact absurd h (by exact fun hc => nomatch hc)
              | ok child =>
                  rw [hg] at h
                  simp only [Except.bind, bind] at h
                  cases hm : modifyItems child (r0 :: rr) cb with
                  | error e =>
                      rw [hm] at h
                      exact absurd h (by exact fun hc => nomatch hc)
                  | ok child' =>
                      rw [hm] at h
                      simp only [Except.bind, bind] at h
                      cases hs : pySetI obj.val.items i child' with
                      | error e =>
                          rw [hs] at h
                          exact absurd h (by exact fun hc => nomatch hc)
                      | ok newItems =>
                          rw [hs] at h
                          simp only [Except.bind, bind, Except.ok.injEq] at h
                          subst h
                          obtain ⟨ko, vo, ho, t0⟩ := obj
                          exact ⟨rfl, rfl, rfl, newItems, rfl⟩

/-- The `_key_index` scan is unchanged when one item is replaced by an
item with the same key. -/
theorem keyIndexScan_set (items : List Item) (j : Nat) (target child' : Item)
    (key : PyVal) (c : Nat)
    (hj : items.get? j = some target) (hk : child'.key = target.key) :
    keyIndexScan (items.set j child') key c = keyIndexScan items key c := by
  induction items generalizing j c with
  | nil => simp at hj
  | cons it its ih =>
      cases j with
      | zero =>
          simp only [List.get?_cons_zero, Option.some.injEq] at hj
          subst hj
          rw [List.set_cons_zero]
          rw [keyIndexScan, keyIndexScan, hk]
      | succ j' =>
          rw [List.set_cons_succ]
          rw [keyIndexScan, keyIndexScan]
          cases it.key with
          | none => rfl
          | some kp =>
              by_cases hpe : pyEq kp.val key = true
              · simp [hpe]
              · simp only [Bool.not_eq_true] at hpe
                simp only [hpe]
                exact ih j' (c + 1) (by simpa using hj)

/-- `_key_index` is unchanged when one item of a container is replaced
by an item with the same key. -/
theorem keyIndex_set (n : Node) (j : Nat) (target child' : Item) (key : PyVal)
    (hj : n.items.get? j = some target) (hk : child'.key = target.key) :
    keyIndex (n.withItems (n.items.set j child')) key = keyIndex n key := by
  cases n with
  | prim p => rfl
  | listC items ml tls => rfl
  | mapC items ml tls =>
      exact keyIndexScan_set items j target child' key 0 hj hk

theorem Item.key_withVal (it : Item) (v : Node) : (it.withVal v).key = it.key := by
  cases it; rfl

theorem Item.val_withVal (it : Item) (v : Node) : (it.withVal v).val = v := by
  cases it; rfl

theorem Item.head_withVal (it : Item) (v : Node) :
    (it.withVal v).head = it.head := by
  cases it; rfl

theorem Item.tail_withVal (it : Item) (v : Node) :
    (it.withVal v).tail = it.tail := by
  cases it; rfl

theorem Item.key_withKey (it : Item) (k : Option Prim) :
    (it.withKey k).key = k := by
  cases it; rfl

theorem Item.val_withKey (it : Item) (k : Option Prim) :
    (it.withKey k).val = it.val := by
  cases it; rfl

theorem Item.head_withKey (it : Item) (k : Option Prim) :
    (it.withKey k).head = it.head := by
  cases it; rfl

theorem Item.tail_withKey (it : Item) (k : Option Prim) :
    (it.withKey k).tail = it.tail := by
  cases it; rfl

theorem get?_set_self (l : List α) (j : Nat) (x : α) (h : j < l.length) :
    (l.set j x).get? j = some x := by
  induction l generalizing j with
  | nil => simp at h
  | cons a as ih =>
      cases j with
      | zero => rfl
      | succ j' => simpa using ih j' (by simpa using h)

theorem get?_set_ne (l : List α) (i j : Nat) (x : α) (h : i ≠ j) :
    (l.set j x).get? i = l.get? i := by
  induction l generalizing i j with
  | nil => simp
  | cons a as ih =>
      cases j with
      | zero =>
          cases i with
          | zero => omega
          | succ i' => rfl
      | succ j' =>
          cases i with
          | zero => rfl
          | succ i' => simpa using ih i' j' (by omega)

theorem pyNorm_lt (n : Nat) (i : Int) (j : Nat) (h : pyNorm n i = some j) :
    j < n := by
  simp only [pyNorm] at h
  by_cases hneg : i < 0
  · rw [if_pos hneg] at h
    by_cases hin : 0 ≤ i + (n : Int) ∧ i + (n : Int) < (n : Int)
    · rw [if_pos hin] at h
      injection h with h
      omega
    · rw [if_neg hin] at h
      exact absurd h (by exact fun hc => nomatch hc)
  · rw [if_neg hneg] at h
    by_cases hin : 0 ≤ i ∧ i < (n : Int)
    · rw [if_pos hin] at h
      injection h with h
      omega
    · rw [if_neg hin] at h
      exact absurd h (by exact fun hc => nomatch hc)

/-- Inversion of a successful dynamic read: the index was an integer
that normalises in range, and the read item is the list element there. -/
theorem pyGetI_ok (l : List α) (i : PyVal) (a : α) (h : pyGetI l i = .ok a) :
    ∃ ii j, i = .int ii ∧ pyNorm l.length ii = some j ∧ l.get? j = some a := by
  match i with
  | .int ii =>
      rw [pyGetI] at h
      cases hn : pyNorm l.length ii with
      | none => simp only [hn] at h; exact absurd h (by exact fun hc => nomatch hc)
      | some j =>
          simp only [hn] at h
          cases hg : l.get? j with
          | none => simp only [hg] at h; exact absurd h (by exact fun hc => nomatch hc)
          | some b =>
              simp only [hg] at h
              injection h with h
              exact ⟨ii, j, rfl, hn, h ▸ hg⟩
  | .str s => exact absurd h (by exact fun hc => nomatch hc)
  | .bool b => exact absurd h (by exact fun hc => nomatch hc)
  | .null => exact absurd h (by exact fun hc => nomatch hc)
  | .float f => exact absurd h (by exact fun hc => nomatch hc)
  | .list xs => exact absurd h (by exact fun hc => nomatch hc)
  | .map ps => exact absurd h (by exact fun hc => nomatch hc)

/-- Inversion of a successful dynamic write: the index was an integer
that normalises in range, and the result is a one-position `set`. -/
theorem pySetI_ok (l : List α) (i : PyVal) (x : α) (l' : List α)
    (h : pySetI l i x = .ok l') :
    ∃ ii j, i = .int ii ∧ pyNorm l.length ii = some j ∧ l' = l.set j x := by
  match i with
  | .int ii =>
      rw [pySetI] at h
      cases hn : pyNorm l.length ii with
      | none => simp only [hn] at h; exact absurd h (by exact fun hc => nomatch hc)
      | some j =>
          simp only [hn] at h
          injection h with h
          exact ⟨ii, j, rfl, hn, h.symm⟩
  | .str s => exact absurd h (by exact fun hc => nomatch hc)
  | .bool b => exact absurd h (by exact fun hc => nomatch hc)
  | .null => exact absurd h (by exact fun hc => nomatch hc)
  | .float f => exact absurd h (by exact fun hc => nomatch hc)
  | .list xs => exact absurd h (by exact fun hc => nomatch hc)
  | .map ps => exact absurd h (by exact fun hc => nomatch hc)

/-- `_key_index` only succeeds on containers, and a container's
`_replace(items=...)` carries exactly the given items. -/
theorem items_withItems_of_keyIndex_ok (n : Node) (k i : PyVal)
    (l : List Item) (h : keyIndex n k = .ok i) : (n.withItems l).items = l := by
  cases n with
  | prim p => exact absurd h (by exact fun hc => nomatch hc)
  | listC its ml tls => rfl
  | mapC its ml tls => rfl

/-! ## Path resolution and divergence -/

/-- Resolve one path segment at a node to the physical item position it
addresses: `_key_index` followed by Python index normalisation (Map keys
resolve to their scan index, List keys to the normalised integer). -/
def resolveStep (node : Node) (k : PyVal) : Option Nat :=
  match keyIndex node k with
  | .ok (.int i) => pyNorm node.items.length i
  | _ => none

/-- `diverges node p q`: both paths resolve a first segment, and at some
step before either ends they address different physical positions — so
`q` leads outside the subtree addressed by `p`. -/
def diverges (node : Node) (p q : List PyVal) : Bool :=
  match p, q with
  | pk :: prest, qk :: qrest =>
      match resolveStep node pk, resolveStep node qk with
      | some pi, some qi =>
          if pi = qi then
            match node.items.get? pi with
            | some child => diverges child.val prest qrest
            | none => false
          else true
      | _, _ => false
  | _, _ => false

/-- What a successful `_key_index` scan yields: a nonnegative in-range
index whose item's key compares equal to the lookup key. -/
theorem keyIndexScan_ok (items : List Item) (key : PyVal) (c : Nat)
    (i : PyVal) (h : keyIndexScan items key c = .ok i) :
    ∃ jn : Nat, i = .int (c + jn) ∧ jn < items.length ∧
      ∃ it, items.get? jn = some it ∧
        ∃ kp, it.key = some kp ∧ pyEq kp.val key = true := by
  induction items generalizing c with
  | nil => rw [keyIndexScan] at h; exact absurd h (by exact fun hc => nomatch hc)
  | cons it its ih =>
      rw [keyIndexScan] at h
      cases hkey : it.key with
      | none =>
          rw [hkey] at h
          exact absurd h (by exact fun hc => nomatch hc)
      | some kp =>
          simp only [hkey] at h
          by_cases hpe : pyEq kp.val key = true
          · rw [if_pos hpe] at h
            injection h with h
            exact ⟨0, by simp [← h], by simp, it, rfl, kp, hkey, hpe⟩
          · rw [if_neg hpe] at h
            obtain ⟨jn, hi, hlt, it2, hit2, kp2, hk2, hp2⟩ := ih (c + 1) h
            exact ⟨jn + 1, by rw [hi]; congr 1; omega,
              by simp only [List.length_cons]; omega, it2,
              by simpa using hit2, kp2, hk2, hp2⟩

/-- Forward computation of a dynamic read at an integer index. -/
theorem pyGetI_int (l : List α) (ii : Int) (j : Nat) (a : α)
    (hn : pyNorm l.length ii = some j) (hj : l.get? j = some a) :
    pyGetI l (.int ii) = .ok a := by
  rw [pyGetI]
  simp only [hn, hj]

/-- Inversion of a resolved path step: `_key_index` produced an integer
that normalises to the physical position. -/
theorem resolveStep_ok (n : Node) (k : PyVal) (j : Nat)
    (h : resolveStep n k = some j) :
    ∃ ii, keyIndex n k = .ok (.int ii) ∧ pyNorm n.items.length ii = some j := by
  rw [resolveStep] at h
  cases hk : keyIndex n k with
  | error e =>
      simp only [hk] at h
      exact absurd h (by exact fun hc => nomatch hc)
  | ok i =>
      cases i with
      | int ii => simp only [hk] at h; exact ⟨ii, rfl, h⟩
      | str s => simp only [hk] at h; exact absurd h (by exact fun hc => nomatch hc)
      | bool b => simp only [hk] at h; exact absurd h (by exact fun hc => nomatch hc)
      | null => simp only [hk] at h; exact absurd h (by exact fun hc => nomatch hc)
      | float f => simp only [hk] at h; exact absurd h (by exact fun hc => nomatch hc)
      | list xs => simp only [hk] at h; exact absurd h (by exact fun hc => nomatch hc)
      | map ps => simp only [hk] at h; exact absurd h (by exact fun hc => nomatch hc)

/-- Core frame lemma for `_set` on a non-empty path: the terminal Item
keeps its shell (`key`/`head`/`tail`) and gets the synthesized new value
as `val`; every Item along the path keeps its shell; and `_get` along
any path that diverges from the edited one reads exactly what it read
before the edit. -/
theorem set_frame_aux (v : PyVal) :
    ∀ (rest : List PyVal) (root : Item) (k : PyVal) (root' : Item),
      set root (k :: rest) v = .ok root' →
      (∃ it n, get root (k :: rest) = .ok it ∧ toAst v = some n ∧
          get root' (k :: rest) = .ok (it.withVal n)) ∧
      (∀ q, q <+: (k :: rest) → ∃ it it', get root q = .ok it ∧
          get root' q = .ok it' ∧
          it'.key = it.key ∧ it'.head = it.head ∧ it'.tail = it.tail) ∧
      (∀ q, diverges root.val (k :: rest) q = true →
          get root' q = get root q) := by
  intro rest
  induction rest with
  | nil =>
      intro root k root' hset
      rw [set, modifyItems] at hset
      cases hki : keyIndex root.val k with
      | error e =>
          rw [hki] at hset
          exact absurd hset (by exact fun hc => nomatch hc)
      | ok i =>
      rw [hki] at hset
      simp only [Except.bind, bind] at hset
      rw [setCb] at hset
      cases hg : pyGetI root.val.items i with
      | error e =>
          simp only [hg, Except.bind, bind] at hset
          exact absurd hset (by exact fun hc => nomatch hc)
      | ok target =>
      simp only [hg, Except.bind, bind] at hset
      rw [replaceVal] at hset
      cases ha : toAst v with
      | none =>
          simp only [ha, Except.bind, bind] at hset
          exact absurd hset (by exact fun hc => nomatch hc)
      | some n =>
      simp only [ha, Except.bind, bind] at hset
      cases hs : pySetI root.val.items i (target.withVal n) with
      | error e =>
          simp only [hs, Except.bind, bind] at hset
          exact absurd hset (by exact fun hc => nomatch hc)
      | ok newItems =>
      simp only [hs, Except.bind, bind] at hset
      injection hset with hset
      obtain ⟨ii, j, rfl, hn, hj⟩ := pyGetI_ok _ _ _ hg
      obtain ⟨ii2, j2, hii2, hn2, hni⟩ := pySetI_ok _ _ _ _ hs
      injection hii2 with hii2
      subst hii2
      rw [hn] at hn2
      injection hn2 with hn2
      subst hn2
      subst hni
      subst hset
      have hval' :
          (root.withVal
              (root.val.withItems
                (root.val.items.set j (target.withVal n)))).val =
            root.val.withItems (root.val.items.set j (target.withVal n)) :=
        Item.val_withVal _ _
      have hkiEq : ∀ kk, keyIndex
          (root.withVal
            (root.val.withItems
              (root.val.items.set j (target.withVal n)))).val kk =
          keyIndex root.val kk := by
        intro kk
        rw [hval']
        exact keyIndex_set root.val j target (target.withVal n) kk hj
          (Item.key_withVal target n)
      have hitems' :
          (root.withVal
              (root.val.withItems
                (root.val.items.set j (target.withVal n)))).val.items =
            root.val.items.set j (target.withVal n) := by
        rw [hval']
        exact items_withItems_of_keyIndex_ok _ _ _ _ hki
      have hjlt : j < root.val.items.length := pyNorm_lt _ _ _ hn
      have hgr : get root [k] = .ok target := by
        rw [get, hki]
        simp only [Except.bind, bind, hg]
      have hg' :
          pyGetI
            (root.withVal
              (root.val.withItems
                (root.val.items.set j (target.withVal n)))).val.items
            (.int ii) = .ok (target.withVal n) := by
        rw [hitems']
        exact pyGetI_int _ ii j _ (by rw [List.length_set]; exact hn)
          (get?_set_self _ _ _ hjlt)
      have hgr' : get
          (root.withVal
            (root.val.withItems
              (root.val.items.set j (target.withVal n)))) [k] =
          .ok (target.withVal n) := by
        rw [get, hkiEq k, hki]
        simp only [Except.bind, bind, hg']
      refine ⟨⟨target, n, hgr, rfl, hgr'⟩, ?_, ?_⟩
      · intro q hq
        match q with
        | [] =>
            refine ⟨root, _, rfl, rfl, ?_, ?_, ?_⟩
            · exact Item.key_withVal _ _
            · exact Item.head_withVal _ _
            · exact Item.tail_withVal _ _
        | a :: as =>
            obtain ⟨rfl, has⟩ := List.cons_prefix_cons.mp hq
            rw [List.prefix_nil] at has
            subst has
            exact ⟨target, target.withVal n, hgr, hgr',
              Item.key_withVal _ _, Item.head_withVal _ _,
              Item.tail_withVal _ _⟩
      · intro q hdiv
        match q with
        | [] =>
            rw [show diverges root.val [k] [] = false from rfl] at hdiv
            exact absurd hdiv (by decide)
        | qk :: qrest =>
            rw [diverges] at hdiv
            have hrs : resolveStep root.val k = some j := by
              rw [resolveStep]
              simp only [hki, hn]
            simp only [hrs] at hdiv
            cases hq2 : resolveStep root.val qk with
            | none =>
                simp only [hq2] at hdiv
                exact absurd hdiv (by decide)
            | some qi =>
                simp only [hq2] at hdiv
                by_cases heq : j = qi
                · rw [if_pos heq] at hdiv
                  simp only [hj] at hdiv
                  rw [show diverges target.val [] qrest = false from by
                    cases qrest <;> rfl] at hdiv
                  exact absurd hdiv (by decide)
                · rw [if_neg heq] at hdiv
                  obtain ⟨qii, hqk, hqn⟩ := resolveStep_ok _ _ _ hq2
                  have hqlt : qi < root.val.items.length := pyNorm_lt _ _ _ hqn
                  cases hqg : root.val.items.get? qi with
                  | none =>
                      rw [List.get?_eq_none] at hqg
                      omega
                  | some itq =>
                      have hg1 : pyGetI root.val.items (.int qii) = .ok itq :=
                        pyGetI_int _ qii qi itq hqn hqg
                      have hg2 : pyGetI
                          (root.withVal
                            (root.val.withItems
                              (root.val.items.set j
                                (target.withVal n)))).val.items
                          (.int qii) = .ok itq := by
                        rw [hitems']
                        exact pyGetI_int _ qii qi itq
                          (by rw [List.length_set]; exact hqn)
                          (by rw [get?_set_ne _ _ _ _ (fun hc => heq hc.symm)]
                              exact hqg)
                      rw [get, get, hkiEq qk, hqk]
                      simp only [Except.bind, bind, hg1, hg2]
  | cons r0 rr ih =>
      intro root k root' hset
      rw [set, modifyItems] at hset
      cases hki : keyIndex root.val k with
      | error e =>
          rw [hki] at hset
          exact absurd hset (by exact fun hc => nomatch hc)
      | ok i =>
      rw [hki] at hset
      simp only [Except.bind, bind] at hset
      cases hg : pyGetI root.val.items i with
      | error e =>
          simp only [hg, Except.bind, bind] at hset
          exact absurd hset (by exact fun hc => nomatch hc)
      | ok child =>
      simp only [hg, Except.bind, bind] at hset
      cases hm : modifyItems child (r0 :: rr) (fun o i => setCb o i v) with
      | error e =>
          simp only [hm, Except.bind, bind] at hset
          exact absurd hset (by exact fun hc => nomatch hc)
      | ok child' =>
      simp only [hm, Except.bind, bind] at hset
      cases hs : pySetI root.val.items i child' with
      | error e =>
          simp only [hs, Except.bind, bind] at hset
          exact absurd hset (by exact fun hc => nomatch hc)
      | ok newItems =>
      simp only [hs, Except.bind, bind] at hset
      injection hset with hset
      have hm' : set child (r0 :: rr) v = .ok child' := by rw [set]; exact hm
      obtain ⟨⟨it, n, hgit, ha, hgit'⟩, hpre, hdivg⟩ := ih child r0 child' hm'
      obtain ⟨c0, c0', hc0, hc0', hck, hch, hct⟩ :=
        hpre [] (List.nil_prefix)
      rw [get] at hc0 hc0'
      injection hc0 with hc0
      injection hc0' with hc0'
      subst hc0
      subst hc0'
      obtain ⟨ii, j, rfl, hn, hj⟩ := pyGetI_ok _ _ _ hg
      obtain ⟨ii2, j2, hii2, hn2, hni⟩ := pySetI_ok _ _ _ _ hs
      injection hii2 with hii2
      subst hii2
      rw [hn] at hn2
      injection hn2 with hn2
      subst hn2
      subst hni
      subst hset
      have hval' :
          (root.withVal
              (root.val.withItems (root.val.items.set j child'))).val =
            root.val.withItems (root.val.items.set j child') :=
        Item.val_withVal _ _
      have hkiEq : ∀ kk, keyIndex
          (root.withVal
            (root.val.withItems (root.val.items.set j child'))).val kk =
          keyIndex root.val kk := by
        intro kk
        rw [hval']
        exact keyIndex_set root.val j child child' kk hj hck
      have hitems' :
          (root.withVal
              (root.val.withItems
                (root.val.items.set j child'))).val.items =
            root.val.items.set j child' := by
        rw [hval']
        exact items_withItems_of_keyIndex_ok _ _ _ _ hki
      have hjlt : j < root.val.items.length := pyNorm_lt _ _ _ hn
      have hg' : pyGetI
          (root.withVal
            (root.val.withItems
              (root.val.items.set j child'))).val.items
          (.int ii) = .ok child' := by
        rw [hitems']
        exact pyGetI_int _ ii j _ (by rw [List.length_set]; exact hn)
          (get?_set_self _ _ _ hjlt)
      have hgr : get root (k :: r0 :: rr) = .ok it := by
        rw [get, hki]
        simp only [Except.bind, bind, hg]
        exact hgit
      have hgr' : get
          (root.withVal
            (root.val.withItems (root.val.items.set j child')))
          (k :: r0 :: rr) = .ok (it.withVal n) := by
        rw [get, hkiEq k, hki]
        simp only [Except.bind, bind, hg']
        exact hgit'
      refine ⟨⟨it, n, hgr, ha, hgr'⟩, ?_, ?_⟩
      · intro q hq
        match q with
        | [] =>
            refine ⟨root, _, rfl, rfl, ?_, ?_, ?_⟩
            · exact Item.key_withVal _ _
            · exact Item.head_withVal _ _
            · exact Item.tail_withVal _ _
        | a :: as =>
            obtain ⟨rfl, has⟩ := List.cons_prefix_cons.mp hq
            match as, has with
            | [], _ =>
                refine ⟨child, child', ?_, ?_, hck, hch, hct⟩
                · rw [get, hki]
                  simp only [Except.bind, bind, hg]
                · rw [get, hkiEq a, hki]
                  simp only [Except.bind, bind, hg']
            | a1 :: as1, has =>
                obtain ⟨it2, it2', hgc, hgc', hsk, hsh, hst⟩ :=
                  hpre (a1 :: as1) has
                refine ⟨it2, it2', ?_, ?_, hsk, hsh, hst⟩
                · rw [get, hki]
                  simp only [Except.bind, bind, hg]
                  exact hgc
                · rw [get, hkiEq a, hki]
                  simp only [Except.bind, bind, hg']
                  exact hgc'
      · intro q hdiv
        match q with
        | [] =>
            rw [show diverges root.val (k :: r0 :: rr) [] = false from
              rfl] at hdiv
            exact absurd hdiv (by decide)
        | qk :: qrest =>
            rw [diverges] at hdiv
            have hrs : resolveStep root.val k = some j := by
              rw [resolveStep]
              simp only [hki, hn]
            simp only [hrs] at hdiv
            cases hq2 : resolveStep root.val qk with
            | none =>
                simp only [hq2] at hdiv
                exact absurd hdiv (by decide)
            | some qi =>
                simp only [hq2] at hdiv
                obtain ⟨qii, hqk, hqn⟩ := resolveStep_ok _ _ _ hq2
                have hqlt : qi < root.val.items.length := pyNorm_lt _ _ _ hqn
                by_cases heq : j = qi
                · rw [if_pos heq] at hdiv
                  simp only [hj] at hdiv
                  match qrest, hdiv with
                  | q0 :: qs, hdiv =>
                      have hq3 : get child' (q0 :: qs) = get child (q0 :: qs) :=
                        hdivg (q0 :: qs) hdiv
                      subst heq
                      have hg1 : pyGetI root.val.items (.int qii) = .ok child :=
                        pyGetI_int _ qii j child hqn hj
                      have hg2 : pyGetI
                          (root.withVal
                            (root.val.withItems
                              (root.val.items.set j child'))).val.items
                          (.int qii) = .ok child' := by
                        rw [hitems']
                        exact pyGetI_int _ qii j child'
                          (by rw [List.length_set]; exact hqn)
                          (get?_set_self _ _ _ hjlt)
                      rw [get, get, hkiEq qk, hqk]
                      simp only [Except.bind, bind, hg1, hg2]
                      exact hq3
                · rw [if_neg heq] at hdiv
                  cases hqg : root.val.items.get? qi with
                  | none =>
                      rw [List.get?_eq_none] at hqg
                      omega
                  | some itq =>
                      have hg1 : pyGetI root.val.items (.int qii) = .ok itq :=
                        pyGetI_int _ qii qi itq hqn hqg
                      have hg2 : pyGetI
                          (root.withVal
                            (root.val.withItems
                              (root.val.items.set j child'))).val.items
                          (.int qii) = .ok itq := by
                        rw [hitems']
                        exact pyGetI_int _ qii qi itq
                          (by rw [List.length_set]; exact hqn)
                          (by rw [get?_set_ne _ _ _ _ (fun hc => heq hc.symm)]
                              exact hqg)
                      rw [get, get, hkiEq qk, hqk]
                      simp only [Except.bind, bind, hg1, hg2]

/-! ## Claim C3: set preserves siblings -/

/-- First entry of the C3 witness document `a: 1` / `b: 2`. -/
def c3ita : Item :=
  .mk (some (Prim.bareWordKey "a" "a")) (Node.prim (.int 1 "1")) [] [Tok.nl]

/-- Second entry of the C3 witness document. -/
def c3itb : Item :=
  .mk (some (Prim.bareWordKey "b" "b")) (Node.prim (.int 2 "2")) [] [Tok.nl]

/-- The C3 witness document: a braceless top-level map with two entries. -/
def c3root : Item := .mk none (Node.mapC [c3ita, c3itb] true true) [] []

/-- The C3 witness document after `set(doc, [a], 5)`. -/
def c3rootB : Item :=
  .mk none
    (Node.mapC [c3ita.withVal (Node.prim (.int 5 "5")), c3itb] true true) [] []

/-- C3: a successful `set` of native value `v` at a non-empty path
replaces only the terminal Item's `val` (with the synthesized tree of
`v`); the terminal Item's `key`, `head` and `tail` and those of every
Item along the path are byte-identical to before; and `get` — hence the
projection and all trivia — is completely unchanged along every path
that diverges from the edited one. -/
theorem set_preserves_siblings (root : Item) (k : PyVal) (rest : List PyVal)
    (v : PyVal) (root' : Item)
    (hset : set root (k :: rest) v = .ok root') :
    (∃ it n, get root (k :: rest) = .ok it ∧ toAst v = some n ∧
        get root' (k :: rest) = .ok (it.withVal n)) ∧
    (∀ q, q <+: (k :: rest) → ∃ it it', get root q = .ok it ∧
        get root' q = .ok it' ∧
        it'.key = it.key ∧ it'.head = it.head ∧ it'.tail = it.tail) ∧
    (∀ q, diverges root.val (k :: rest) q = true →
        get root' q = get root q) :=
  set_frame_aux v rest root k root' hset

theorem set_preserves_siblings_witness :
    set c3root [PyVal.str "a"] (PyVal.int 5) = .ok c3rootB ∧
    get c3rootB [PyVal.str "b"] = get c3root [PyVal.str "b"] ∧
    get c3rootB [PyVal.str "a"] =
      .ok (c3ita.withVal (Node.prim (.int 5 "5"))) := by
  have hta : toAst (PyVal.int 5) = some (Node.prim (Prim.int 5 "5")) := by
    simp [toAst, toTokens, intDump]
    rfl
  have hset : set c3root [PyVal.str "a"] (PyVal.int 5) = .ok c3rootB := by
    rw [set, modifyItems]
    rw [show keyIndex c3root.val (PyVal.str "a") = Except.ok (PyVal.int 0) from
      rfl]
    simp only [Except.bind, bind]
    rw [setCb]
    rw [show pyGetI c3root.val.items (PyVal.int 0) = Except.ok c3ita from rfl]
    simp only [Except.bind, bind]
    rw [replaceVal, hta]
    simp only [Except.bind, bind]
    rfl
  have h := set_preserves_siblings c3root (PyVal.str "a") [] (PyVal.int 5)
    c3rootB hset
  refine ⟨hset, h.2.2 [PyVal.str "b"] (by rfl), ?_⟩
  obtain ⟨it, n, hgit, han, hgit'⟩ := h.1
  rw [show get c3root [PyVal.str "a"] = .ok c3ita from rfl] at hgit
  injection hgit with hgit
  rw [hta] at han
  injection han with han
  rw [← hgit, ← han] at hgit'
  exact hgit'

/-! ## Claim C8: replacing a key -/

/-- Error propagation through `_modify_items`: if `_get` reaches the
terminal Item's parent and the local step (locate plus callback) raises,
the whole operation raises that same exception. -/
theorem modifyItems_parent_error (cb : Item → PyVal → Except PyErr (List Item)) :
    ∀ (pre : List PyVal) (root parent : Item) (k : PyVal) (e : PyErr),
      get root pre = .ok parent →
      ((do
          let i ← keyIndex parent.val k
          cb parent i) : Except PyErr (List Item)) = .error e →
      modifyItems root (pre ++ [k]) cb = .error e := by
  intro pre
  induction pre with
  | nil =>
      intro root parent k e hpar hloc
      rw [get] at hpar
      injection hpar with hpar
      subst hpar
      rw [List.nil_append, modifyItems]
      cases hki : keyIndex root.val k with
      | error e2 =>
          simp only [hki, Except.bind, bind] at hloc ⊢
          injection hloc with hloc
          rw [hloc]
      | ok i =>
          simp only [hki, Except.bind, bind] at hloc ⊢
          simp only [hloc, Except.bind, bind]
  | cons a pre' ih =>
      intro root parent k e hpar hloc
      rw [get] at hpar
      cases hki : keyIndex root.val a with
      | error e2 =>
          rw [hki] at hpar
          exact absurd hpar (by exact fun hc => nomatch hc)
      | ok i =>
      rw [hki] at hpar
      simp only [Except.bind, bind] at hpar
      cases hg : pyGetI root.val.items i with
      | error e2 =>
          simp only [hg, Except.bind, bind] at hpar
          exact absurd hpar (by exact fun hc => nomatch hc)
      | ok child =>
      simp only [hg, Except.bind, bind] at hpar
      rw [List.cons_append]
      match pre', hpar, ih with
      | [], hpar, ih =>
          injection hpar with hpar
          subst hpar
          have hinner := ih child child k e rfl hloc
          rw [List.nil_append] at hinner ⊢
          rw [modifyItems]
          simp only [hki, Except.bind, bind]
          simp only [hg, Except.bind, bind]
          simp only [hinner, Except.bind, bind]
      | p0 :: ps, hpar, ih =>
          have hinner := ih child parent k e hpar hloc
          rw [List.cons_append] at hinner ⊢
          rw [modifyItems]
          simp only [hki, Except.bind, bind]
          simp only [hg, Except.bind, bind]
          simp only [hinner, Except.bind, bind]

/-- Success renavigation through `_modify_items`: on success the local
step succeeded at the parent, and re-reading the parent's path in the
result finds the parent rebuilt with exactly the callback's items. -/
theorem modifyItems_parent_ok (cb : Item → PyVal → Except PyErr (List Item)) :
    ∀ (pre : List PyVal) (root parent : Item) (k : PyVal) (root2 : Item),
      get root pre = .ok parent →
      modifyItems root (pre ++ [k]) cb = .ok root2 →
      ∃ i newItems, keyIndex parent.val k = .ok i ∧
        cb parent i = .ok newItems ∧
        get root2 pre = .ok (parent.withVal (parent.val.withItems newItems)) := by
  intro pre
  induction pre with
  | nil =>
      intro root parent k root2 hpar hmod
      rw [get] at hpar
      injection hpar with hpar
      subst hpar
      rw [List.nil_append, modifyItems] at hmod
      cases hki : keyIndex root.val k with
      | error e =>
          rw [hki] at hmod
          exact absurd hmod (by exact fun hc => nomatch hc)
      | ok i =>
      rw [hki] at hmod
      simp only [Except.bind, bind] at hmod
      cases hcb : cb root i with
      | error e =>
          simp only [hcb, Except.bind, bind] at hmod
          exact absurd hmod (by exact fun hc => nomatch hc)
      | ok newItems =>
      simp only [hcb, Except.bind, bind] at hmod
      injection hmod with hmod
      subst hmod
      exact ⟨i, newItems, rfl, hcb, rfl⟩
  | cons a pre' ih =>
      intro root parent k root2 hpar hmod
      rw [get] at hpar
      cases hki : keyIndex root.val a with
      | error e =>
          rw [hki] at hpar
          exact absurd hpar (by exact fun hc => nomatch hc)
      | ok i =>
      rw [hki] at hpar
      simp only [Except.bind, bind] at hpar
      cases hg : pyGetI root.val.items i with
      | error e =>
          simp only [hg, Except.bind, bind] at hpar
          exact absurd hpar (by exact fun hc => nomatch hc)
      | ok child =>
      simp only [hg, Except.bind, bind] at hpar
      rw [List.cons_append] at hmod
      match pre', hpar, hmod, ih with
      | [], hpar, hmod, ih =>
          injection hpar with hpar
          subst hpar
          rw [List.nil_append] at hmod
          rw [modifyItems] at hmod
          rw [hki] at hmod
          simp only [Except.bind, bind] at hmod
          simp only [hg, Except.bind, bind] at hmod
          cases hmi : modifyItems child [k] cb with
          | error e =>
              simp only [hmi, Except.bind, bind] at hmod
              exact absurd hmod (by exact fun hc => nomatch hc)
          | ok child2 =>
          simp only [hmi, Except.bind, bind] at hmod
          cases hs : pySetI root.val.items i child2 with
          | error e =>
              simp only [hs, Except.bind, bind] at hmod
              exact absurd hmod (by exact fun hc => nomatch hc)
          | ok newItems0 =>
          simp only [hs, Except.bind, bind] at hmod
          injection hmod with hmod
          obtain ⟨hckey, hchead, hctail, hcval⟩ := modifyItems_shell child
            [k] cb child2 hmi
          obtain ⟨ii, j, rfl, hn, hj⟩ := pyGetI_ok _ _ _ hg
          obtain ⟨ii2, j2, hii2, hn2, hni⟩ := pySetI_ok _ _ _ _ hs
          injection hii2 with hii2
          subst hii2
          rw [hn] at hn2
          injection hn2 with hn2
          subst hn2
          subst hni
          subst hmod
          obtain ⟨i0, ni0, hki0, hcb0, hre0⟩ :=
            ih child child k child2 rfl (by rw [List.nil_append]; exact hmi)
          rw [get] at hre0
          injection hre0 with hre0
          refine ⟨i0, ni0, hki0, hcb0, ?_⟩
          have hval2 :
              (root.withVal
                  (root.val.withItems (root.val.items.set j child2))).val =
                root.val.withItems (root.val.items.set j child2) :=
            Item.val_withVal _ _
          have hkiEq : keyIndex
              (root.withVal
                (root.val.withItems (root.val.items.set j child2))).val a =
              keyIndex root.val a := by
            rw [hval2]
            exact keyIndex_set root.val j child child2 a hj hckey
          have hitems2 :
              (root.withVal
                  (root.val.withItems
                    (root.val.items.set j child2))).val.items =
                root.val.items.set j child2 := by
            rw [hval2]
            exact items_withItems_of_keyIndex_ok _ _ _ _ hki
          have hjlt : j < root.val.items.length := pyNorm_lt _ _ _ hn
          have hg2 : pyGetI
              (root.withVal
                (root.val.withItems
                  (root.val.items.set j child2))).val.items
              (.int ii) = .ok child2 := by
            rw [hitems2]
            exact pyGetI_int _ ii j _ (by rw [List.length_set]; exact hn)
              (get?_set_self _ _ _ hjlt)
          rw [get, hkiEq, hki]
          simp only [Except.bind, bind, hg2]
          rw [hre0]
      | p0 :: ps, hpar, hmod, ih =>
          rw [List.cons_append] at hmod
          rw [modifyItems] at hmod
          rw [hki] at hmod
          simp only [Except.bind, bind] at hmod
          simp only [hg, Except.bind, bind] at hmod
          cases hmi : modifyItems child (p0 :: (ps ++ [k])) cb with
          | error e =>
              simp only [hmi, Except.bind, bind] at hmod
              exact absurd hmod (by exact fun hc => nomatch hc)
          | ok child2 =>
          simp only [hmi, Except.bind, bind] at hmod
          cases hs : pySetI root.val.items i child2 with
          | error e =>
              simp only [hs, Except.bind, bind] at hmod
              exact absurd hmod (by exact fun hc => nomatch hc)
          | ok newItems0 =>
          simp only [hs, Except.bind, bind] at hmod
          injection hmod with hmod
          obtain ⟨hckey, hchead, hctail, hcval⟩ := modifyItems_shell child
            (p0 :: (ps ++ [k])) cb child2 hmi
          obtain ⟨ii, j, rfl, hn, hj⟩ := pyGetI_ok _ _ _ hg
          obtain ⟨ii2, j2, hii2, hn2, hni⟩ := pySetI_ok _ _ _ _ hs
          injection hii2 with hii2
          subst hii2
          rw [hn] at hn2
          injection hn2 with hn2
          subst hn2
          subst hni
          subst hmod
          obtain ⟨i0, ni0, hki0, hcb0, hre0⟩ :=
            ih child parent k child2 hpar
              (by rw [List.cons_append]; exact hmi)
          refine ⟨i0, ni0, hki0, hcb0, ?_⟩
          have hval2 :
              (root.withVal
                  (root.val.withItems (root.val.items.set j child2))).val =
                root.val.withItems (root.val.items.set j child2) :=
            Item.val_withVal _ _
          have hkiEq : keyIndex
              (root.withVal
                (root.val.withItems (root.val.items.set j child2))).val a =
              keyIndex root.val a := by
            rw [hval2]
            exact keyIndex_set root.val j child child2 a hj hckey
          have hitems2 :
              (root.withVal
                  (root.val.withItems
                    (root.val.items.set j child2))).val.items =
                root.val.items.set j child2 := by
            rw [hval2]
            exact items_withItems_of_keyIndex_ok _ _ _ _ hki
          have hjlt : j < root.val.items.length := pyNorm_lt _ _ _ hn
          have hg2 : pyGetI
              (root.withVal
                (root.val.withItems
                  (root.val.items.set j child2))).val.items
              (.int ii) = .ok child2 := by
            rw [hitems2]
            exact pyGetI_int _ ii j _ (by rw [List.length_set]; exact hn)
              (get?_set_self _ _ _ hjlt)
          rw [get, hkiEq, hki]
          simp only [Except.bind, bind, hg2]
          exact hre0

/-- Inversion of a successful `_set_key_cb`: the parent was a Map, the
new key synthesized-and-reparsed to a primitive node, and the result is
the parent's items with exactly one item's `key` replaced. -/
theorem setKeyCb_ok (obj : Item) (i nv : PyVal) (newItems : List Item)
    (h : setKeyCb obj i nv = .ok newItems) :
    ∃ its ml tls kp ii j it,
      obj.val = .mapC its ml tls ∧
      toAst nv = some (.prim kp) ∧
      i = .int ii ∧ pyNorm its.length ii = some j ∧
      its.get? j = some it ∧
      newItems = its.set j (it.withKey (some kp)) := by
  rw [setKeyCb] at h
  cases hv : obj.val with
  | prim p =>
      simp only [hv] at h
      exact absurd h (by exact fun hc => nomatch hc)
  | listC its ml tls =>
      simp only [hv] at h
      exact absurd h (by exact fun hc => nomatch hc)
  | mapC its ml tls =>
      simp only [hv] at h
      cases ha : toAst nv with
      | none =>
          simp only [ha] at h
          exact absurd h (by exact fun hc => nomatch hc)
      | some keyNode =>
          simp only [ha] at h
          cases keyNode with
          | prim kp =>
              simp only [Except.bind, bind] at h
              cases hg : pyGetI its i with
              | error e =>
                  simp only [hg, Except.bind, bind] at h
                  exact absurd h (by exact fun hc => nomatch hc)
              | ok it =>
                  simp only [hg, Except.bind, bind] at h
                  obtain ⟨ii, j, rfl, hn, hj⟩ := pyGetI_ok _ _ _ hg
                  obtain ⟨ii2, j2, hii2, hn2, hni⟩ := pySetI_ok _ _ _ _ h
                  injection hii2 with hii2
                  subst hii2
                  rw [hn] at hn2
                  injection hn2 with hn2
                  subst hn2
                  exact ⟨its, ml, tls, kp, ii, j, it, rfl, rfl, rfl, hn, hj,
                    hni⟩
          | listC its2 ml2 tls2 =>
              exact absurd h (by exact fun hc => nomatch hc)
          | mapC its2 ml2 tls2 =>
              exact absurd h (by exact fun hc => nomatch hc)

/-- One entry of the C8 witness list. -/
def c8one : Item := .mk none (Node.prim (.int 1 "1")) [] []

/-- The List-valued entry `l` of the C8 witness document. -/
def c8list : Item :=
  .mk (some (Prim.bareWordKey "l" "l")) (Node.listC [c8one] false false) []
    [Tok.nl]

/-- The Map entry `a: 2` of the C8 witness document. -/
def c8ita : Item :=
  .mk (some (Prim.bareWordKey "a" "a")) (Node.prim (.int 2 "2")) [] [Tok.nl]

/-- The C8 witness document: a braceless top-level map `l: [1]` / `a: 2`. -/
def c8root : Item := .mk none (Node.mapC [c8list, c8ita] true true) [] []

/-- The C8 witness document after replacing the key `a` with `"z"`. -/
def c8rootB : Item :=
  .mk none
    (Node.mapC [c8list, c8ita.withKey (some (Prim.string "z" "\"z\""))]
      true true) [] []

/-- C8: replacing the key at a non-empty path (parent reached by `_get`
on the path's prefix) fails with the `NotAMap` `TypeError` when the
terminal Item's parent container is a List; fails with the
`InvalidKeyType` `TypeError` naming the offending node type when the
synthesized-and-reparsed new key is not a primitive node; and on success
changes only the terminal Item's `key` field — the parent is rebuilt
with the same items except that the addressed item gets the new key,
keeping its `val`, `head` and `tail`. -/
theorem set_key_spec (root parent : Item) (pre : List PyVal) (k : PyVal)
    (nv : PyVal) (hpar : get root pre = .ok parent) :
    (∀ its ml tls, parent.val = .listC its ml tls →
        setKey root (pre ++ [k]) nv =
          .error (.typeError
            ("Can only replace Map keys, not " ++ parent.val.typeName))) ∧
    (∀ its ml tls keyNode, parent.val = .mapC its ml tls →
        (∃ i, keyIndex parent.val k = .ok i) →
        toAst nv = some keyNode → (∀ kp, keyNode ≠ .prim kp) →
        setKey root (pre ++ [k]) nv =
          .error (.typeError
            ("Keys must be of type (String, Bool, Null, Int, Float, " ++
             "BareWordKey) but got " ++ keyNode.typeName))) ∧
    (∀ root2, setKey root (pre ++ [k]) nv = .ok root2 →
        ∃ its ml tls kp ii j it,
          parent.val = .mapC its ml tls ∧
          toAst nv = some (.prim kp) ∧
          keyIndex parent.val k = .ok (.int ii) ∧
          pyNorm its.length ii = some j ∧ its.get? j = some it ∧
          get root2 pre = .ok (parent.withVal
            (.mapC (its.set j (it.withKey (some kp))) ml tls))) := by
  refine ⟨?_, ?_, ?_⟩
  · intro its ml tls hv
    rw [setKey]
    refine modifyItems_parent_error _ pre root parent k _ hpar ?_
    rw [show keyIndex parent.val k = .ok k from by rw [hv]; rfl]
    simp only [Except.bind, bind]
    rw [setKeyCb]
    simp only [hv]
  · intro its ml tls keyNode hv hex hta hnp
    rw [setKey]
    refine modifyItems_parent_error _ pre root parent k _ hpar ?_
    obtain ⟨i, hki⟩ := hex
    rw [hki]
    simp only [Except.bind, bind]
    rw [setKeyCb]
    cases keyNode with
    | prim kp => exact absurd rfl (hnp kp)
    | listC its2 ml2 tls2 =>
        simp only [hv, hta]
    | mapC its2 ml2 tls2 =>
        simp only [hv, hta]
  · intro root2 hok
    rw [setKey] at hok
    obtain ⟨i, newItems, hki, hcb, hre⟩ :=
      modifyItems_parent_ok _ pre root parent k root2 hpar hok
    obtain ⟨its, ml, tls, kp, ii, j, it, hv, hta, rfl, hn, hj, hni⟩ :=
      setKeyCb_ok parent i nv newItems hcb
    refine ⟨its, ml, tls, kp, ii, j, it, hv, hta, hki, hn, hj, ?_⟩
    rw [hni] at hre
    rw [hre]
    rw [show (parent.val.withItems (its.set j (it.withKey (some kp)))) =
      .mapC (its.set j (it.withKey (some kp))) ml tls from by
        rw [hv]
        rfl]

theorem set_key_spec_witness :
    setKey c8root ([PyVal.str "l"] ++ [PyVal.int 0]) (PyVal.str "z") =
      .error (.typeError
        ("Can only replace Map keys, not " ++ c8list.val.typeName)) ∧
    setKey c8root ([] ++ [PyVal.str "a"]) (PyVal.list []) =
      .error (.typeError
        ("Keys must be of type (String, Bool, Null, Int, Float, " ++
         "BareWordKey) but got " ++ (Node.listC [] false false).typeName)) ∧
    (∃ its ml tls kp ii j it,
      c8root.val = .mapC its ml tls ∧
      toAst (PyVal.str "z") = some (.prim kp) ∧
      keyIndex c8root.val (PyVal.str "a") = .ok (.int ii) ∧
      pyNorm its.length ii = some j ∧ its.get? j = some it ∧
      get c8rootB [] = .ok (c8root.withVal
        (.mapC (its.set j (it.withKey (some kp))) ml tls))) := by
  have hta : toAst (PyVal.str "z") =
      some (Node.prim (Prim.string "z" "\"z\"")) := by
    simp [toAst, toTokens, strDump]
    rfl
  have htl : toAst (PyVal.list []) = some (Node.listC [] false false) := by
    simp [toAst, toTokens, containerToks, inlineToks, listItemsToks,
      multilineToks, spaces]
    rfl
  have hset : setKey c8root ([] ++ [PyVal.str "a"]) (PyVal.str "z") =
      .ok c8rootB := by
    rw [List.nil_append, setKey, modifyItems]
    rw [show keyIndex c8root.val (PyVal.str "a") = Except.ok (PyVal.int 1) from
      rfl]
    simp only [Except.bind, bind]
    rw [setKeyCb]
    rw [show c8root.val = Node.mapC [c8list, c8ita] true true from rfl]
    simp only [hta]
    simp only [Except.bind, bind]
    rfl
  refine ⟨?_, ?_, ?_⟩
  · exact (set_key_spec c8root c8list [PyVal.str "l"] (PyVal.int 0)
      (PyVal.str "z") rfl).1 [c8one] false false rfl
  · exact (set_key_spec c8root c8root [] (PyVal.str "a") (PyVal.list [])
      rfl).2.1 [c8list, c8ita] true true (Node.listC [] false false) rfl
      ⟨.int 1, rfl⟩ htl (fun kp hc => nomatch hc)
  · exact (set_key_spec c8root c8root [] (PyVal.str "a") (PyVal.str "z")
      rfl).2.2 c8rootB hset

end Dumbconf
